import Mathlib

/-!
# Verification of the word-packing storage layer

Shallow embedding of the pdinklag/word-packing C++ headers.

Machine integers are modelled as `Nat` with explicit reductions:
* `uintmax_t` / `size_t` arithmetic is arithmetic modulo `2 ^ 64`
  (`U64`); every C++ operation that can leave the 64-bit range is
  followed by the corresponding reduction.
* a value stored into a pack word of `W` bits is reduced modulo `2 ^ W`.

Buffers of pack words are lists of naturals; `List.getD _ _ 0` plays the
role of dereferencing `data[a]`.
-/

namespace word_packing

/-- The modulus of C++ `uintmax_t` (and `size_t`) arithmetic: `2 ^ 64`. -/
def U64 : Nat := 2 ^ 64

/-- C++ left shift `x << n` on `uintmax_t`.  For `n < 64` this is the usual
shift reduced modulo `2 ^ 64`; for larger `n` the reduction yields `0`
(the C++ source never shifts an in-range operand fully out except through
the wrap-around cases modelled here, where `x * 2 ^ n` is divisible by
`2 ^ 64`). -/
def shl64 (x n : Nat) : Nat := if n < 64 then (x <<< n) % U64 else 0

/-- C++ bitwise complement `~x` on `uintmax_t`; for `x < 2 ^ 64` this is the
bitwise negation inside 64 bits. -/
def not64 (x : Nat) : Nat := (U64 - 1) ^^^ x

/-- C++ `size_t` subtraction `bits - 1` (wraps around at zero). -/
def sub64one (bits : Nat) : Nat := (bits + (U64 - 1)) % U64

/-- `word_packing::low_mask` (identical text in
`pdinklag::word_packing_internals::low_mask`):
`~((UINTMAX_MAX << (bits - 1)) << 1)`. -/
def low_mask (bits : Nat) : Nat := not64 (shl64 (shl64 (U64 - 1) (sub64one bits)) 1)

/-- `word_packing::internal::low_mask0`: `~(UINTMAX_MAX << bits)`. -/
def low_mask0 (bits : Nat) : Nat := not64 (shl64 (U64 - 1) bits)

/-- `word_packing::internal::idiv_ceil`: `((a + b) - 1ULL) / b` in `size_t`
arithmetic. -/
def idiv_ceil (a b : Nat) : Nat := (((a + b) % U64 + (U64 - 1)) % U64) / b

/-- `word_packing::num_packs_required<Pack>(num, width)` where `D` is the
number of digits of `Pack`: `idiv_ceil(num * width, D)`, the product taken
in `size_t`. -/
def num_packs_required (D num width : Nat) : Nat := idiv_ceil ((num * width) % U64) D

/-- The exact ceiling division `⌈a / b⌉`, written as the spec phrases it:
the number of storage words needed for `a` bits of payload. -/
def ceil_div_spec (a b : Nat) : Nat := a / b + (if a % b = 0 then 0 else 1)

/-- Spec-side view of the packed buffer: bit `p` of the bit string formed by
the pack words, i.e. bit `p % W` of word `p / W`. -/
def bufBit (W : Nat) (data : List Nat) (p : Nat) : Bool :=
  (data.getD (p / W) 0).testBit (p % W)

/-- `word_packing::internal::get(data, i, width, mask)` — the runtime-width
read.  `W` is `PACK_BITS`, the digit count of the pack type. -/
def get (W : Nat) (data : List Nat) (i width mask : Nat) : Nat :=
  let j := i * width
  let a := j / W
  let b := (j + width - 1) / W
  let da := j &&& (W - 1)
  let wa := W - da
  let a_hi := data.getD a 0 >>> da
  let b_lo := data.getD b 0
  (shl64 b_lo wa ||| a_hi) &&& mask

/-- `word_packing::internal::set(data, i, x, width, mask)` — the
runtime-width write.  Pack-word stores are reduced modulo `2 ^ W`. -/
def set (W : Nat) (data : List Nat) (i x width mask : Nat) : List Nat :=
  let v := x &&& mask
  let j := i * width
  let a := j / W
  let b := (j + width - 1) / W
  let da := j &&& (W - 1)
  if a = b then
    let xa := data.getD a 0
    let mask_lo := low_mask0 da
    let mask_hi := shl64 (shl64 (not64 mask_lo) (width - 1)) 1
    data.set a ((xa &&& mask_lo ||| shl64 v da ||| xa &&& mask_hi) % 2 ^ W)
  else
    let wa := W - da
    let wb := width - wa
    let a_lo := data.getD a 0 &&& low_mask0 da
    let v_lo := v &&& low_mask wa
    let d1 := data.set a ((shl64 v_lo da ||| a_lo) % 2 ^ W)
    let b_hi := d1.getD b 0 >>> wb
    let v_hi := v >>> wa
    d1.set b ((shl64 b_hi wb ||| v_hi) % 2 ^ W)

/-- `word_packing::internal::get<width>(data, i)` — the compile-time-width
read, including the single-bit (`width == 1`) and aligned special cases. -/
def getT (width W : Nat) (data : List Nat) (i : Nat) : Nat :=
  if width = 1 then
    let a := i / W
    let j := i % W
    let mask := shl64 1 j
    if data.getD a 0 &&& mask ≠ 0 then 1 else 0
  else
    let mask := low_mask width
    let j := i * width
    let a := j / W
    let da := j &&& (W - 1)
    let a_hi := data.getD a 0 >>> da
    if W % width = 0 then
      a_hi &&& mask
    else
      let b := (j + width - 1) / W
      let wa := W - da
      let b_lo := data.getD b 0
      (shl64 b_lo wa ||| a_hi) &&& mask

/-- `word_packing::internal::set<width>(data, i, x)` — the compile-time-width
write.  In the `width == 1` branch the value is clamped through
`bool(x)` and `-b & mask` selects the bit. -/
def setT (width W : Nat) (data : List Nat) (i x : Nat) : List Nat :=
  if width = 1 then
    let a := i / W
    let j := i % W
    let mask := shl64 1 j
    data.set a
      ((data.getD a 0 &&& not64 mask |||
        (if x = 0 then 0 else U64 - 1) &&& mask) % 2 ^ W)
  else
    let mask := low_mask width
    let v := x &&& mask
    let j := i * width
    let a := j / W
    let b := (j + width - 1) / W
    let da := j &&& (W - 1)
    if W % width = 0 ∨ a = b then
      let xa := data.getD a 0
      let mask_lo := low_mask0 da
      let mask_hi := shl64 (shl64 (not64 mask_lo) (width - 1)) 1
      data.set a ((xa &&& mask_lo ||| shl64 v da ||| xa &&& mask_hi) % 2 ^ W)
    else
      let wa := W - da
      let wb := width - wa
      let a_lo := data.getD a 0 &&& low_mask0 da
      let v_lo := v &&& low_mask wa
      let d1 := data.set a ((shl64 v_lo da ||| a_lo) % 2 ^ W)
      let b_hi := d1.getD b 0 >>> wb
      let v_hi := v >>> wa
      d1.set b ((shl64 b_hi wb ||| v_hi) % 2 ^ W)

/-- `std::copy(src, src + n, dst)` on pack-word buffers: the first `n` words
come from `src`, the rest of `dst` is kept. -/
def copyWords (src dst : List Nat) (n : Nat) : List Nat :=
  src.take n ++ dst.drop n

/-- Smallest power of two that is at least `n` (the spec's
`next_power_of_two`). -/
def next_power_of_two (n : Nat) : Nat := 2 ^ Nat.clog 2 n

/-- State of `word_packing::PackedFixedWidthIntVector<width_, Pack>`: the
`size_`, `capacity_` and `data_` members. -/
structure PackedFixedWidthIntVector where
  size : Nat
  capacity : Nat
  data : List Nat
deriving DecidableEq

/-- The default constructor: size and capacity zero, no buffer. -/
def defaultPFWVector : PackedFixedWidthIntVector := ⟨0, 0, []⟩

/-- The `PackedFixedWidthIntVector(size_t size)` constructor: size and
capacity `size`; a zero-initialised buffer of
`num_packs_required(size, width)` words is allocated only when the
capacity is positive. -/
def ofSize (width W size : Nat) : PackedFixedWidthIntVector :=
  ⟨size, size,
   if 0 < size then List.replicate (num_packs_required W size width) 0 else []⟩

/-- `PackedFixedWidthIntVector::get`: forwards to the compile-time codec. -/
def PackedFixedWidthIntVector.get (width W : Nat)
    (v : PackedFixedWidthIntVector) (i : Nat) : Nat :=
  getT width W v.data i

/-- `PackedFixedWidthIntVector::set`: forwards to the compile-time codec. -/
def PackedFixedWidthIntVector.set (width W : Nat)
    (v : PackedFixedWidthIntVector) (i x : Nat) : PackedFixedWidthIntVector :=
  { v with data := setT width W v.data i x }

/-- `PackedFixedWidthIntVector::resize`. -/
def PackedFixedWidthIntVector.resize (width W : Nat)
    (v : PackedFixedWidthIntVector) (size : Nat) : PackedFixedWidthIntVector :=
  if size ≤ v.capacity then { v with size := size }
  else
    let new_vec := ofSize width W size
    let copy_num := min v.size size
    { new_vec with
      data := copyWords v.data new_vec.data (num_packs_required W copy_num width) }

/-- `PackedFixedWidthIntVector::reserve`. -/
def PackedFixedWidthIntVector.reserve (width W : Nat)
    (v : PackedFixedWidthIntVector) (capacity : Nat) : PackedFixedWidthIntVector :=
  if v.capacity < capacity then
    let new_vec := ofSize width W capacity
    let new_vec2 :=
      { new_vec with
        data := copyWords v.data new_vec.data (num_packs_required W v.size width) }
    PackedFixedWidthIntVector.resize width W new_vec2 v.size
  else v

/-- `PackedFixedWidthIntVector::push_back`. -/
def PackedFixedWidthIntVector.push_back (width W : Nat)
    (v : PackedFixedWidthIntVector) (x : Nat) : PackedFixedWidthIntVector :=
  let v1 :=
    if v.capacity ≤ v.size then
      PackedFixedWidthIntVector.reserve width W v
        (if v.capacity = 0 then 1 else 2 * v.capacity)
    else v
  let v2 := PackedFixedWidthIntVector.set width W v1 v1.size x
  { v2 with size := v1.size + 1 }

/-- `PackedFixedWidthIntVector::pop_back`: `if(size_) --size_;`. -/
def PackedFixedWidthIntVector.pop_back
    (v : PackedFixedWidthIntVector) : PackedFixedWidthIntVector :=
  if 0 < v.size then { v with size := v.size - 1 } else v

/-- `PackedFixedWidthIntVector::clear`. -/
def PackedFixedWidthIntVector.clear
    (v : PackedFixedWidthIntVector) : PackedFixedWidthIntVector :=
  { v with size := 0 }

/-- `IntContainer::empty`: `size() == 0`. -/
def PackedFixedWidthIntVector.empty (v : PackedFixedWidthIntVector) : Bool :=
  v.size == 0

/-- `PackedFixedWidthIntVector::operator=(const&)`: copies size and capacity,
then allocates `num_packs_required(size_, width_)` zeroed words and copies
that many words from the source. -/
def PackedFixedWidthIntVector.copyAssign (width W : Nat)
    (o : PackedFixedWidthIntVector) : PackedFixedWidthIntVector :=
  { size := o.size, capacity := o.capacity,
    data := copyWords o.data
      (List.replicate (num_packs_required W o.size width) 0)
      (num_packs_required W o.size width) }

/-- `n` consecutive `push_back` calls. -/
def PackedFixedWidthIntVector.pushMany (width W : Nat)
    (v : PackedFixedWidthIntVector) (xs : List Nat) : PackedFixedWidthIntVector :=
  xs.foldl (fun a x => PackedFixedWidthIntVector.push_back width W a x) v

end word_packing

namespace pdinklag

open word_packing (U64 shl64 not64 low_mask idiv_ceil copyWords)

/-- `pdinklag::word_packing_internals::pack_word_count<PackWord>`:
`idiv_ceil(num * width, digits)` in `size_t` arithmetic (`idiv_ceil` is
textually the same function as in the `word_packing` namespace, and
`pdinklag`'s `low_mask` is textually the same two-step-shift formula as
`word_packing`'s, so both are shared here). -/
def pack_word_count (D num width : Nat) : Nat :=
  idiv_ceil ((num * width) % U64) D

/-- State of `pdinklag::PackedIntVector<PackWord>`: the `size_`, `capacity_`,
`width_`, `mask_` and `data_` members. -/
structure PackedIntVector where
  size : Nat
  capacity : Nat
  width : Nat
  mask : Nat
  data : List Nat
deriving DecidableEq

/-- The default constructor `PackedIntVector()`: everything zero, no
buffer. -/
def defaultPackedIntVector : PackedIntVector := ⟨0, 0, 0, 0, []⟩

/-- The `PackedIntVector(size_t size, size_t width)` constructor: size and
capacity `size`, mask `low_mask(width)` and a zero-initialised buffer of
`pack_word_count(size, width)` words (`std::make_unique` of an array
value-initialises). -/
def mkPackedIntVector (W size width : Nat) : PackedIntVector :=
  ⟨size, size, width, low_mask width,
   List.replicate (pack_word_count W size width) 0⟩

/-- `pdinklag::PackedIntVector::get`. -/
def PackedIntVector.get (W : Nat) (pv : PackedIntVector) (i : Nat) : Nat :=
  let j := i * pv.width
  let a := j / W
  let b := (j + pv.width - 1) / W
  let da := j &&& (W - 1)
  let wa := W - da
  let a_hi := pv.data.getD a 0 >>> da
  let b_lo := pv.data.getD b 0
  (shl64 b_lo wa ||| a_hi) &&& pv.mask

/-- `pdinklag::PackedIntVector::set`.  Note the older mask handling: the
low-preserve mask is `low_mask(dl)` (not `low_mask0`), and the
high-preserve mask is `~mask_lo << width_` in a single shift. -/
def PackedIntVector.set (W : Nat) (pv : PackedIntVector) (i x : Nat) :
    PackedIntVector :=
  let v := x &&& pv.mask
  let j := i * pv.width
  let a := j / W
  let b := (j + pv.width - 1) / W
  if a < b then
    let da := j &&& (W - 1)
    let wa := W - da
    let wb := pv.width - wa
    let a_lo := pv.data.getD a 0 &&& low_mask da
    let v_lo := v &&& low_mask wa
    let d1 := pv.data.set a ((shl64 v_lo da ||| a_lo) % 2 ^ W)
    let b_hi := d1.getD b 0 >>> wb
    let v_hi := v >>> wa
    { pv with data := d1.set b ((shl64 b_hi wb ||| v_hi) % 2 ^ W) }
  else
    let dl := j &&& (W - 1)
    let xa := pv.data.getD a 0
    let mask_lo := low_mask dl
    let mask_hi := shl64 (not64 mask_lo) pv.width
    { pv with data :=
        pv.data.set a ((xa &&& mask_lo ||| shl64 v dl ||| xa &&& mask_hi) % 2 ^ W) }

/-- The element-by-element loop of `resize`:
`for(size_t i = 0; i < copy_num; i++) new_vec.set(i, get(i));` reading from
the old vector `old`. -/
def PackedIntVector.repackLoop (W : Nat) (old : PackedIntVector) :
    PackedIntVector → Nat → PackedIntVector
  | nv, 0 => nv
  | nv, n + 1 =>
    (PackedIntVector.repackLoop W old nv n).set W n (old.get W n)

/-- `pdinklag::PackedIntVector::resize(size_t size, size_t width)`. -/
def PackedIntVector.resize (W : Nat) (pv : PackedIntVector)
    (size width : Nat) : PackedIntVector :=
  if width = pv.width ∧ size ≤ pv.capacity then { pv with size := size }
  else
    let new_vec := mkPackedIntVector W size width
    let copy_num := min pv.size size
    if pv.width = width then
      { new_vec with
        data := copyWords pv.data new_vec.data (pack_word_count W copy_num pv.width) }
    else
      PackedIntVector.repackLoop W pv new_vec copy_num

/-- `pdinklag::PackedIntVector::empty`: `size_ == 0`. -/
def PackedIntVector.empty (pv : PackedIntVector) : Bool := pv.size == 0

end pdinklag

namespace word_packing

theorem U64_pos : 0 < U64 := by decide

theorem shl64_eq_of_lt {n : Nat} (h : n < 64) (x : Nat) :
    shl64 x n = (x <<< n) % U64 := by
  simp [shl64, h]

theorem shl64_eq_zero_of_ge {n : Nat} (h : 64 ≤ n) (x : Nat) : shl64 x n = 0 := by
  simp [shl64, Nat.not_lt.mpr h]

theorem testBit_shl64 (x n t : Nat) :
    (shl64 x n).testBit t =
      (decide (t < 64) && decide (n ≤ t) && x.testBit (t - n)) := by
  by_cases h : n < 64
  · simp only [shl64, if_pos h, U64]
    rw [Nat.testBit_mod_two_pow, Nat.testBit_shiftLeft]
    by_cases ht : t < 64 <;> by_cases hn : n ≤ t <;>
      simp [ht, hn, ge_iff_le]
  · have h64 : 64 ≤ n := Nat.not_lt.mp h
    simp only [shl64, if_neg h, Nat.zero_testBit]
    by_cases ht : t < 64 <;> by_cases hn : n ≤ t <;>
      simp [ht, hn]
    omega

theorem lt_U64_of_lt {x : Nat} (h : x < U64) : x < 2 ^ 64 := h

theorem shl64_lt (x n : Nat) : shl64 x n < U64 := by
  unfold shl64
  split
  · exact Nat.mod_lt _ U64_pos
  · exact U64_pos

theorem not64_lt (x : Nat) (h : x < U64) : not64 x < U64 := by
  have : (U64 - 1) ^^^ x < 2 ^ 64 := by
    apply Nat.xor_lt_two_pow (x := U64 - 1) (y := x)
    · exact Nat.sub_lt U64_pos Nat.one_pos
    · exact h
  exact this

theorem testBit_not64 {x : Nat} (h : x < U64) (t : Nat) :
    (not64 x).testBit t = (decide (t < 64) && !(x.testBit t)) := by
  simp only [not64, Nat.testBit_xor, U64]
  have h1 : (2 ^ 64 - 1 : Nat).testBit t = decide (t < 64) :=
    Nat.testBit_two_pow_sub_one 64 t
  rw [h1]
  by_cases ht : t < 64
  · simp [ht]
  · have : x.testBit t = false :=
      Nat.testBit_lt_two_pow
        (Nat.lt_of_lt_of_le h (Nat.pow_le_pow_right (by norm_num) (Nat.not_lt.mp ht)))
    simp [ht, this]

/-- The two-step-shift mask formula evaluates to `2 ^ bits - 1` for every
`bits` between 1 and 64. -/
theorem low_mask_eq {bits : Nat} (h1 : 1 ≤ bits) (h2 : bits ≤ 64) :
    low_mask bits = 2 ^ bits - 1 := by
  have hsub : sub64one bits = bits - 1 := by
    unfold sub64one U64
    have : bits + (2 ^ 64 - 1) = (bits - 1) + 2 ^ 64 := by omega
    rw [this, Nat.add_mod_right]
    exact Nat.mod_eq_of_lt (by omega)
  apply Nat.eq_of_testBit_eq
  intro t
  have hlt : shl64 (shl64 (U64 - 1) (sub64one bits)) 1 < U64 := shl64_lt _ _
  rw [low_mask, testBit_not64 hlt, Nat.testBit_two_pow_sub_one]
  rw [testBit_shl64, testBit_shl64, hsub]
  have hmax : (U64 - 1).testBit (t - 1 - (bits - 1)) =
      decide (t - 1 - (bits - 1) < 64) := by
    have : (U64 - 1 : Nat) = 2 ^ 64 - 1 := rfl
    rw [this, Nat.testBit_two_pow_sub_one]
  rw [hmax]
  by_cases ht : t < 64
  · by_cases hb : t < bits
    · have h1t : ¬ 1 ≤ t ∨ ¬ (bits - 1 ≤ t - 1) := by omega
      rcases h1t with h | h <;> simp [ht, hb, h]
    · have hb' : bits ≤ t := Nat.not_lt.mp hb
      have h1t : 1 ≤ t := by omega
      have hbt : bits - 1 ≤ t - 1 := by omega
      have hfin : t - 1 - (bits - 1) < 64 := by omega
      have ht1 : t - 1 < 64 := by omega
      simp [ht, hb, h1t, hbt, hfin, ht1]
  · have hb : ¬ t < bits := by omega
    simp [ht, hb]

/-- `low_mask0 bits = 2 ^ bits - 1` for `bits < 64` (the range in which the
source uses it). -/
theorem low_mask0_eq {bits : Nat} (h : bits < 64) :
    low_mask0 bits = 2 ^ bits - 1 := by
  apply Nat.eq_of_testBit_eq
  intro t
  rw [low_mask0, testBit_not64 (shl64_lt _ _), Nat.testBit_two_pow_sub_one,
    testBit_shl64]
  have hmax : (U64 - 1).testBit (t - bits) = decide (t - bits < 64) := by
    have : (U64 - 1 : Nat) = 2 ^ 64 - 1 := rfl
    rw [this, Nat.testBit_two_pow_sub_one]
  rw [hmax]
  by_cases ht : t < 64
  · by_cases hb : t < bits
    · have : ¬ bits ≤ t := by omega
      simp [ht, hb, this]
    · have hb' : bits ≤ t := Nat.not_lt.mp hb
      have : t - bits < 64 := by omega
      simp [ht, hb, hb', this]
  · have hb : ¬ t < bits := by omega
    simp [ht, hb]

theorem low_mask_lt (bits : Nat) : low_mask bits < U64 :=
  not64_lt _ (shl64_lt _ _)

theorem low_mask0_lt (bits : Nat) : low_mask0 bits < U64 :=
  not64_lt _ (shl64_lt _ _)

theorem getD_lt_two_pow {W : Nat} {data : List Nat}
    (wf : ∀ u ∈ data, u < 2 ^ W) (n : Nat) : data.getD n 0 < 2 ^ W := by
  rcases Nat.lt_or_ge n data.length with h | h
  · rw [List.getD_eq_getElem?_getD, List.getElem?_eq_getElem h]
    exact wf _ (List.getElem_mem h)
  · rw [List.getD_eq_getElem?_getD, List.getElem?_eq_none (by omega)]
    exact Nat.pos_pow_of_pos W (by omega)

theorem getD_set_eq_ite (l : List Nat) (m n y : Nat) :
    (l.set m y).getD n 0 = if m = n ∧ m < l.length then y else l.getD n 0 := by
  simp only [List.getD_eq_getElem?_getD, List.getElem?_set]
  by_cases h : m = n
  · subst h
    by_cases hm : m < l.length
    · simp [hm]
    · simp [hm, List.getElem?_eq_none (show l.length ≤ m by omega)]
  · simp [h]

theorem mulW_add_div {W : Nat} (hW : 0 < W) (n s : Nat) (hs : s < W) :
    (W * n + s) / W = n := by
  rw [Nat.mul_add_div hW, Nat.div_eq_of_lt hs, Nat.add_zero]

theorem mulW_add_mod {W : Nat} (n s : Nat) (hs : s < W) :
    (W * n + s) % W = s := by
  rw [Nat.mul_add_mod]
  exact Nat.mod_eq_of_lt hs

/-- When the element fits inside its first word, the right border `b`
coincides with the left border `a`. -/
theorem right_border_eq {W j width : Nat} (hW : 0 < W) (hw : 1 ≤ width)
    (h : j % W + width ≤ W) : (j + width - 1) / W = j / W := by
  have hd := Nat.div_add_mod j W
  have h1 : j + width - 1 = W * (j / W) + (j % W + width - 1) := by omega
  rw [h1, Nat.mul_add_div hW,
    Nat.div_eq_of_lt (show j % W + width - 1 < W by omega), Nat.add_zero]

/-- Bit-level behaviour of the single-word merge
`(xa & mask_lo) | (v << da) | (xa & mask_hi)` used by `set` when the
element is an infix of one pack word: bits `[da, da+width)` come from `v`,
all other bits of `xa` are preserved. -/
theorem writeWord_testBit {W da width xa v : Nat} (hW64 : W ≤ 64)
    (hw1 : 1 ≤ width) (hda : da + width ≤ W)
    (hxa : xa < 2 ^ W) (hv : v < 2 ^ width) (s : Nat) :
    ((xa &&& low_mask0 da ||| shl64 v da |||
      xa &&& shl64 (shl64 (not64 (low_mask0 da)) (width - 1)) 1) % 2 ^ W).testBit s
      = if da ≤ s ∧ s < da + width then v.testBit (s - da) else xa.testBit s := by
  have hda64 : da < 64 := by omega
  have hlm0 : low_mask0 da = 2 ^ da - 1 := low_mask0_eq hda64
  have hlm0U : (2 : Nat) ^ da - 1 < U64 := by
    have h1 : (2 : Nat) ^ da ≤ 2 ^ 64 := Nat.pow_le_pow_right (by omega) (by omega)
    have h2 : (0 : Nat) < 2 ^ da := Nat.pos_pow_of_pos _ (by omega)
    unfold U64
    omega
  rw [hlm0, Nat.testBit_mod_two_pow]
  by_cases hsW : s < W
  case neg =>
    have h1 : ¬ (da ≤ s ∧ s < da + width) := by omega
    have h2 : xa.testBit s = false :=
      Nat.testBit_lt_two_pow
        (lt_of_lt_of_le hxa (Nat.pow_le_pow_right (by omega) (by omega)))
    simp [hsW, h2, h1]
  case pos =>
  have hs64 : s < 64 := by omega
  simp only [Nat.testBit_or, Nat.testBit_and, testBit_shl64,
    testBit_not64 hlm0U, Nat.testBit_two_pow_sub_one]
  by_cases h1 : s < da
  · have h2 : ¬ da ≤ s := by omega
    have h3 : ¬ (da ≤ s ∧ s < da + width) := by omega
    rw [if_neg h3]
    by_cases h4 : s < width
    · by_cases h5 : 1 ≤ s
      · have h6 : ¬ width - 1 ≤ s - 1 := by omega
        simp [hsW, hs64, h1, h2, h4, h5, h6]
      · simp [hsW, hs64, h1, h2, h5]
    · have h5 : 1 ≤ s := by omega
      have h6 : width - 1 ≤ s - 1 := by omega
      have h7 : s - 1 - (width - 1) < da := by omega
      simp [hsW, hs64, h1, h2, h5, h6, h7]
  · by_cases h2 : s < da + width
    · have h3 : da ≤ s ∧ s < da + width := by omega
      rw [if_pos h3]
      by_cases h5 : 1 ≤ s
      · by_cases h4 : width ≤ s
        · have h6 : width - 1 ≤ s - 1 := by omega
          have h7 : s - 1 - (width - 1) < da := by omega
          simp [hsW, hs64, h1, h3.1, h5, h6, h7]
        · have h6 : ¬ width - 1 ≤ s - 1 := by omega
          simp [hsW, hs64, h1, h3.1, h5, h6]
      · have h6 : s = 0 := by omega
        have h7 : da = 0 := by omega
        have h8 : 0 < W := by omega
        simp [hsW, hs64, h6, h7, h8]
    · have h3 : ¬ (da ≤ s ∧ s < da + width) := by omega
      rw [if_neg h3]
      have h4 : da ≤ s := by omega
      have h5 : 1 ≤ s := by omega
      have h6 : width - 1 ≤ s - 1 := by omega
      have h7 : ¬ s - 1 - (width - 1) < da := by omega
      have h8 : v.testBit (s - da) = false :=
        Nat.testBit_lt_two_pow
          (lt_of_lt_of_le hv (Nat.pow_le_pow_right (by omega) (by omega)))
      have h9 : s - 1 < 64 := by omega
      have h10 : s - 1 - (width - 1) < 64 := by omega
      simp [hsW, hs64, h1, h4, h5, h6, h7, h8, h9, h10]

/-- Bit-level behaviour of the first store of the straddling case of `set`:
`(v_lo << da) | a_lo` replaces bits `[da, W)` of `xa` by the low bits of
`v` and keeps the bits below `da`. -/
theorem writeA_testBit {W da xa v : Nat} (hW64 : W ≤ 64) (hdaW : da < W)
    (hxa : xa < 2 ^ W) (s : Nat) :
    ((shl64 (v &&& low_mask (W - da)) da ||| xa &&& low_mask0 da) % 2 ^ W).testBit s
      = if da ≤ s ∧ s < W then v.testBit (s - da) else xa.testBit s := by
  have hda64 : da < 64 := by omega
  have hlm0 : low_mask0 da = 2 ^ da - 1 := low_mask0_eq hda64
  have hlm : low_mask (W - da) = 2 ^ (W - da) - 1 :=
    low_mask_eq (by omega) (by omega)
  rw [hlm0, hlm, Nat.testBit_mod_two_pow]
  by_cases hsW : s < W
  case neg =>
    have h1 : ¬ (da ≤ s ∧ s < W) := by omega
    have h2 : xa.testBit s = false :=
      Nat.testBit_lt_two_pow
        (lt_of_lt_of_le hxa (Nat.pow_le_pow_right (by omega) (by omega)))
    simp [hsW, h2, h1]
  case pos =>
  have hs64 : s < 64 := by omega
  simp only [Nat.testBit_or, Nat.testBit_and, testBit_shl64,
    Nat.testBit_two_pow_sub_one]
  by_cases h1 : s < da
  · have h2 : ¬ da ≤ s := by omega
    have h3 : ¬ (da ≤ s ∧ s < W) := by omega
    simp [hsW, hs64, h1, h2, h3]
  · have h2 : da ≤ s := by omega
    have h3 : da ≤ s ∧ s < W := by omega
    have h4 : s - da < W - da := by omega
    simp [hsW, hs64, h1, h2, h3, h4]

/-- Bit-level behaviour of the second store of the straddling case of `set`:
`(b_hi << wb) | v_hi` replaces bits `[0, wb)` of `xb` by the high bits of
`v` and keeps the bits at and above `wb`. -/
theorem writeB_testBit {W wa wb xb v : Nat} (hW64 : W ≤ 64) (hwbW : wb < W)
    (hxb : xb < 2 ^ W) (hv : v < 2 ^ (wa + wb)) (s : Nat) :
    ((shl64 (xb >>> wb) wb ||| v >>> wa) % 2 ^ W).testBit s
      = if s < wb then v.testBit (wa + s) else xb.testBit s := by
  rw [Nat.testBit_mod_two_pow]
  by_cases hsW : s < W
  case neg =>
    have h1 : ¬ s < wb := by omega
    have h2 : xb.testBit s = false :=
      Nat.testBit_lt_two_pow
        (lt_of_lt_of_le hxb (Nat.pow_le_pow_right (by omega) (by omega)))
    simp [hsW, h1, h2]
  case pos =>
  have hs64 : s < 64 := by omega
  simp only [Nat.testBit_or, testBit_shl64, Nat.testBit_shiftRight]
  by_cases h1 : s < wb
  · have h2 : ¬ wb ≤ s := by omega
    simp [hsW, hs64, h1, h2]
  · have h2 : wb ≤ s := by omega
    have h3 : wb + (s - wb) = s := by omega
    have h4 : v.testBit (wa + s) = false :=
      Nat.testBit_lt_two_pow
        (lt_of_lt_of_le hv (Nat.pow_le_pow_right (by omega) (by omega)))
    simp [hsW, hs64, h1, h2, h3, h4]

/-- When the element straddles the word boundary, the right border is the
successor of the left border. -/
theorem right_border_succ {W j width : Nat} (hW : 0 < W) (hwW : width ≤ W)
    (h : W < j % W + width) : (j + width - 1) / W = j / W + 1 := by
  have hd := Nat.div_add_mod j W
  have hm : j % W < W := Nat.mod_lt _ hW
  have h1 : j + width - 1 = W * (j / W) + (j % W + width - 1) := by omega
  rw [h1, Nat.mul_add_div hW]
  have h2 : (j % W + width - 1) / W = 1 := by
    apply Nat.div_eq_of_lt_le <;> omega
  rw [h2]

/-- Exact value of `(a + b - 1) / b`, the ceiling division, without any
wrap-around. -/
theorem add_sub_one_div_eq_ceil {b : Nat} (hb : 0 < b) (a : Nat) :
    (a + b - 1) / b = ceil_div_spec a b := by
  have hqr : b * (a / b) + a % b = a := Nat.div_add_mod a b
  have hr : a % b < b := Nat.mod_lt _ hb
  unfold ceil_div_spec
  by_cases h0 : a % b = 0
  · have ha : a + b - 1 = b * (a / b) + (b - 1) := by
      conv_lhs => rw [← hqr]
      omega
    rw [ha, Nat.mul_add_div hb, Nat.div_eq_of_lt (show b - 1 < b by omega)]
    simp [h0]
  · have ha : a + b - 1 = b * (a / b) + ((a % b - 1) + b) := by
      conv_lhs => rw [← hqr]
      omega
    rw [ha, Nat.mul_add_div hb, Nat.add_div_right _ hb,
      Nat.div_eq_of_lt (show a % b - 1 < b by omega)]
    simp [h0]

/-- In the overflow-free range, `idiv_ceil` computes the true ceiling
division. -/
theorem idiv_ceil_eq {a b : Nat} (hb : 0 < b) (hov : a + b ≤ 2 ^ 64) :
    idiv_ceil a b = ceil_div_spec a b := by
  have hU : U64 = 2 ^ 64 := rfl
  unfold idiv_ceil
  have hnum : ((a + b) % U64 + (U64 - 1)) % U64 = a + b - 1 := by
    rcases Nat.lt_or_ge (a + b) (2 ^ 64) with h | h
    · rw [hU, Nat.mod_eq_of_lt h]
      have : a + b + (2 ^ 64 - 1) = (a + b - 1) + 2 ^ 64 := by omega
      rw [this, Nat.add_mod_right, Nat.mod_eq_of_lt (by omega)]
    · have hab : a + b = 2 ^ 64 := by omega
      rw [hU, hab]
      decide
  rw [hnum]
  exact add_sub_one_div_eq_ceil hb a

/-- Bit-level characterisation of the runtime-width `get`: bit `t` of the
result is bit `i * width + t` of the packed buffer, for `t < width`, and
zero above. -/
theorem get_testBit {W k : Nat} (hWk : W = 2 ^ k) (hk : k ≤ 6)
    {data : List Nat} (wf : ∀ u ∈ data, u < 2 ^ W)
    {width : Nat} (hw1 : 1 ≤ width) (hwW : width ≤ W) (i t : Nat) :
    (get W data i width (2 ^ width - 1)).testBit t =
      (decide (t < width) && bufBit W data (i * width + t)) := by
  have hW0 : 0 < W := by rw [hWk]; exact Nat.pos_pow_of_pos _ (by omega)
  have hW64 : W ≤ 64 := by
    have h := Nat.pow_le_pow_right (show 1 ≤ 2 by omega) hk
    rw [hWk]; omega
  simp only [get, bufBit]
  have hand : i * width &&& (W - 1) = i * width % W := by
    rw [hWk]; exact Nat.and_pow_two_sub_one_eq_mod (i * width) k
  rw [hand]
  set j := i * width with hj
  set a := j / W with ha
  set da := j % W with hda
  have hd : W * a + da = j := Nat.div_add_mod j W
  have hdaW : da < W := Nat.mod_lt _ hW0
  by_cases ht : t < width
  case neg =>
    have h1 : ¬ t < width := ht
    simp [Nat.testBit_and, Nat.testBit_two_pow_sub_one, h1]
  case pos =>
  have ht64 : t < 64 := by omega
  by_cases hcase : da + width ≤ W
  · -- the element is an infix of word `a`
    have hb : (j + width - 1) / W = a := right_border_eq hW0 hw1 hcase
    rw [hb]
    have h1 : j + t = W * a + (da + t) := by omega
    rw [h1, mulW_add_div hW0 _ _ (by omega), mulW_add_mod _ _ (by omega)]
    have h2 : ¬ W - da ≤ t := by omega
    simp [Nat.testBit_and, Nat.testBit_or, testBit_shl64,
      Nat.testBit_shiftRight, Nat.testBit_two_pow_sub_one,
      ht, ht64, h2]
  · -- the element straddles words `a` and `a + 1`
    have hb : (j + width - 1) / W = a + 1 :=
      right_border_succ hW0 hwW (by omega)
    rw [hb]
    by_cases htw : da + t < W
    · -- bit `t` lives in word `a`
      have h1 : j + t = W * a + (da + t) := by omega
      rw [h1, mulW_add_div hW0 _ _ (by omega), mulW_add_mod _ _ (by omega)]
      have h2 : ¬ W - da ≤ t := by omega
      simp [Nat.testBit_and, Nat.testBit_or, testBit_shl64,
        Nat.testBit_shiftRight, Nat.testBit_two_pow_sub_one,
        ht, ht64, h2]
    · -- bit `t` lives in word `a + 1`
      have hWa1 : W * (a + 1) = W * a + W := by ring
      have h1 : j + t = W * (a + 1) + (da + t - W) := by omega
      rw [h1, mulW_add_div hW0 _ _ (by omega), mulW_add_mod _ _ (by omega)]
      have h2 : W - da ≤ t := by omega
      have h3 : t - (W - da) = da + t - W := by omega
      have h4 : (data.getD a 0).testBit (da + t) = false :=
        Nat.testBit_lt_two_pow
          (lt_of_lt_of_le (getD_lt_two_pow wf a)
            (Nat.pow_le_pow_right (by omega) (by omega)))
      rw [List.getD_eq_getElem?_getD] at h4
      simp [Nat.testBit_and, Nat.testBit_or, testBit_shl64,
        Nat.testBit_shiftRight, Nat.testBit_two_pow_sub_one,
        ht, ht64, h2, h3, h4]

theorem getD_set_ne {l : List Nat} {m n : Nat} (h : m ≠ n) (y : Nat) :
    (l.set m y).getD n 0 = l.getD n 0 := by
  rw [getD_set_eq_ite]
  simp [h]

theorem set_length (W : Nat) (data : List Nat) (i x width mask : Nat) :
    (set W data i x width mask).length = data.length := by
  simp only [set]
  split <;> simp

theorem set_wf {W : Nat} {data : List Nat}
    (wf : ∀ u ∈ data, u < 2 ^ W) (i x width mask : Nat) :
    ∀ u ∈ set W data i x width mask, u < 2 ^ W := by
  have hpos : 0 < 2 ^ W := Nat.pos_pow_of_pos _ (by omega)
  intro u hu
  simp only [set] at hu
  split at hu
  · rcases List.mem_or_eq_of_mem_set hu with h | h
    · exact wf u h
    · subst h; exact Nat.mod_lt _ hpos
  · rcases List.mem_or_eq_of_mem_set hu with h | h
    · rcases List.mem_or_eq_of_mem_set h with h2 | h2
      · exact wf u h2
      · subst h2; exact Nat.mod_lt _ hpos
    · subst h; exact Nat.mod_lt _ hpos

/-- Bit-level characterisation of the runtime-width `set`: the bit range
`[i * width, i * width + width)` of the buffer receives the masked value,
every other bit is untouched. -/
theorem set_bufBit {W k : Nat} (hWk : W = 2 ^ k) (hk : k ≤ 6)
    {data : List Nat} (wf : ∀ u ∈ data, u < 2 ^ W)
    {width : Nat} (hw1 : 1 ≤ width) (hwW : width ≤ W)
    {i : Nat} (hib : i * width + width ≤ data.length * W) (x p : Nat) :
    bufBit W (set W data i x width (2 ^ width - 1)) p =
      if i * width ≤ p ∧ p < i * width + width
      then (x &&& (2 ^ width - 1)).testBit (p - i * width)
      else bufBit W data p := by
  have hW0 : 0 < W := by rw [hWk]; exact Nat.pos_pow_of_pos _ (by omega)
  have hW64 : W ≤ 64 := by
    have h := Nat.pow_le_pow_right (show 1 ≤ 2 by omega) hk
    rw [hWk]; omega
  have hand : i * width &&& (W - 1) = i * width % W := by
    rw [hWk]; exact Nat.and_pow_two_sub_one_eq_mod (i * width) k
  have hvlt : x &&& (2 ^ width - 1) < 2 ^ width := by
    rw [Nat.and_pow_two_sub_one_eq_mod]
    exact Nat.mod_lt _ (Nat.pos_pow_of_pos _ (by omega))
  simp only [set, bufBit]
  rw [hand]
  set v := x &&& (2 ^ width - 1) with hv
  set j := i * width with hj
  set a := j / W with ha
  set da := j % W with hda
  set n := p / W with hn
  set s := p % W with hs
  have hd : W * a + da = j := Nat.div_add_mod j W
  have hp : W * n + s = p := Nat.div_add_mod p W
  have hdaW : da < W := Nat.mod_lt _ hW0
  have hsW : s < W := Nat.mod_lt _ hW0
  have hblen : (j + width - 1) / W < data.length := by
    rw [Nat.div_lt_iff_lt_mul hW0]
    omega
  by_cases hcase : da + width ≤ W
  · -- single-word branch of `set`
    have hb : (j + width - 1) / W = a := right_border_eq hW0 hw1 hcase
    rw [hb, if_pos rfl]
    have halen : a < data.length := hb ▸ hblen
    rw [getD_set_eq_ite]
    by_cases hna : a = n
    · rw [if_pos ⟨hna, halen⟩,
        writeWord_testBit hW64 hw1 hcase (getD_lt_two_pow wf a) hvlt s]
      rw [hna] at hd
      by_cases hwin : da ≤ s ∧ s < da + width
      · have hc : j ≤ p ∧ p < j + width := by omega
        have harg : p - j = s - da := by omega
        rw [if_pos hwin, if_pos hc, harg]
      · have hc : ¬ (j ≤ p ∧ p < j + width) := by omega
        rw [if_neg hwin, if_neg hc, hna]
    · rw [if_neg (by tauto)]
      have hc : ¬ (j ≤ p ∧ p < j + width) := by
        rintro ⟨hc1, hc2⟩
        apply hna
        have lo : a * W ≤ p := by rw [Nat.mul_comm]; omega
        have hi : p < (a + 1) * W := by
          have e1 : (a + 1) * W = W * a + W := by ring
          omega
        have hdiv : p / W = a := Nat.div_eq_of_lt_le lo hi
        rw [hn, hdiv]
      rw [if_neg hc]
  · -- straddling branch of `set`
    have hsplit : W < da + width := by omega
    have hb : (j + width - 1) / W = a + 1 := right_border_succ hW0 hwW hsplit
    rw [hb]
    have hne : ¬ a = a + 1 := by omega
    rw [if_neg hne]
    have hb1len : a + 1 < data.length := hb ▸ hblen
    have halen : a < data.length := by omega
    have hgne : (a : Nat) ≠ a + 1 := by omega
    rw [getD_set_ne hgne]
    rw [getD_set_eq_ite]
    simp only [List.length_set]
    by_cases hnb : a + 1 = n
    · rw [if_pos ⟨hnb, hb1len⟩]
      have hvwb : v < 2 ^ ((W - da) + (width - (W - da))) := by
        have e : (W - da) + (width - (W - da)) = width := by omega
        rw [e]; exact hvlt
      rw [writeB_testBit hW64 (show width - (W - da) < W by omega)
        (getD_lt_two_pow wf (a + 1)) hvwb s]
      rw [← hnb] at hp
      have e1 : W * (a + 1) = W * a + W := by ring
      by_cases hwin : s < width - (W - da)
      · have hc : j ≤ p ∧ p < j + width := by omega
        have harg : p - j = (W - da) + s := by omega
        rw [if_pos hwin, if_pos hc, harg]
      · have hc : ¬ (j ≤ p ∧ p < j + width) := by omega
        rw [if_neg hwin, if_neg hc, hnb]
    · rw [if_neg (by tauto)]
      rw [getD_set_eq_ite]
      by_cases hna : a = n
      · rw [if_pos ⟨hna, halen⟩,
          writeA_testBit hW64 hdaW (getD_lt_two_pow wf a) s]
        rw [hna] at hd
        by_cases hwin : da ≤ s
        · have hc : j ≤ p ∧ p < j + width := by omega
          have harg : p - j = s - da := by omega
          rw [if_pos ⟨hwin, hsW⟩, if_pos hc, harg]
        · have hc : ¬ (j ≤ p ∧ p < j + width) := by omega
          rw [if_neg (show ¬ (da ≤ s ∧ s < W) by omega), if_neg hc, hna]
      · rw [if_neg (by tauto)]
        have hc : ¬ (j ≤ p ∧ p < j + width) := by
          rintro ⟨hc1, hc2⟩
          have e1 : (a + 1) * W = W * a + W := by ring
          have e2 : (a + 2) * W = W * a + W + W := by ring
          rcases Nat.lt_or_ge p ((a + 1) * W) with hlt | hge
          · apply hna
            have lo : a * W ≤ p := by rw [Nat.mul_comm]; omega
            have hdiv : p / W = a := Nat.div_eq_of_lt_le lo hlt
            rw [hn, hdiv]
          · apply hnb
            have hi : p < (a + 1 + 1) * W := by
              have e3 : (a + 1 + 1) * W = W * a + W + W := by ring
              omega
            have hdiv : p / W = a + 1 := Nat.div_eq_of_lt_le hge hi
            rw [hn, hdiv]
        rw [if_neg hc]

/-- Two well-formed buffers of equal length with the same bit string are
equal. -/
theorem buf_ext {W : Nat} (hW0 : 0 < W) {d1 d2 : List Nat}
    (hlen : d1.length = d2.length)
    (wf1 : ∀ u ∈ d1, u < 2 ^ W) (wf2 : ∀ u ∈ d2, u < 2 ^ W)
    (h : ∀ p, bufBit W d1 p = bufBit W d2 p) : d1 = d2 := by
  apply List.ext_getElem hlen
  intro m h1 h2
  apply Nat.eq_of_testBit_eq
  intro t
  by_cases htW : t < W
  · have hb := h (W * m + t)
    unfold bufBit at hb
    rw [mulW_add_div hW0 _ _ htW, mulW_add_mod _ _ htW] at hb
    rw [List.getD_eq_getElem?_getD, List.getElem?_eq_getElem h1] at hb
    rw [List.getD_eq_getElem?_getD, List.getElem?_eq_getElem h2] at hb
    simpa using hb
  · have e1 : d1[m].testBit t = false :=
      Nat.testBit_lt_two_pow
        (lt_of_lt_of_le (wf1 _ (List.getElem_mem h1))
          (Nat.pow_le_pow_right (by omega) (by omega)))
    have e2 : d2[m].testBit t = false :=
      Nat.testBit_lt_two_pow
        (lt_of_lt_of_le (wf2 _ (List.getElem_mem h2))
          (Nat.pow_le_pow_right (by omega) (by omega)))
    rw [e1, e2]

theorem get_lt_two_pow (W : Nat) (data : List Nat) (i width : Nat) :
    get W data i width (2 ^ width - 1) < 2 ^ width := by
  have h : get W data i width (2 ^ width - 1) ≤ 2 ^ width - 1 := by
    simp only [get]
    exact Nat.and_le_right
  have hpos : 0 < 2 ^ width := Nat.pos_pow_of_pos _ (by omega)
  omega

/-- Reading back an element just written with the runtime codec yields the
masked value. -/
theorem get_set_same {W k : Nat} (hWk : W = 2 ^ k) (hk : k ≤ 6)
    {data : List Nat} (wf : ∀ u ∈ data, u < 2 ^ W)
    {width : Nat} (hw1 : 1 ≤ width) (hwW : width ≤ W)
    {i : Nat} (hib : i * width + width ≤ data.length * W) (x : Nat) :
    get W (set W data i x width (2 ^ width - 1)) i width (2 ^ width - 1) =
      x &&& (2 ^ width - 1) := by
  apply Nat.eq_of_testBit_eq
  intro t
  rw [get_testBit hWk hk (set_wf wf i x width (2 ^ width - 1)) hw1 hwW]
  by_cases ht : t < width
  · rw [set_bufBit hWk hk wf hw1 hwW hib x (i * width + t)]
    have hc : i * width ≤ i * width + t ∧ i * width + t < i * width + width := by
      omega
    rw [if_pos hc]
    have harg : i * width + t - i * width = t := by omega
    rw [harg]
    simp [ht]
  · have hxm : x &&& (2 ^ width - 1) < 2 ^ width := by
      have := Nat.and_le_right (n := x) (m := 2 ^ width - 1)
      have hpos : 0 < 2 ^ width := Nat.pos_pow_of_pos _ (by omega)
      omega
    have h2 : (x &&& (2 ^ width - 1)).testBit t = false :=
      Nat.testBit_lt_two_pow
        (lt_of_lt_of_le hxm (Nat.pow_le_pow_right (by omega) (by omega)))
    simp [ht, h2]

/-- A write at index `i` leaves the runtime-codec read of any other index
unchanged. -/
theorem set_frame_get {W k : Nat} (hWk : W = 2 ^ k) (hk : k ≤ 6)
    {data : List Nat} (wf : ∀ u ∈ data, u < 2 ^ W)
    {width : Nat} (hw1 : 1 ≤ width) (hwW : width ≤ W)
    {i : Nat} (hib : i * width + width ≤ data.length * W) (x : Nat)
    {m : Nat} (hmi : m ≠ i) :
    get W (set W data i x width (2 ^ width - 1)) m width (2 ^ width - 1) =
      get W data m width (2 ^ width - 1) := by
  apply Nat.eq_of_testBit_eq
  intro t
  rw [get_testBit hWk hk (set_wf wf i x width (2 ^ width - 1)) hw1 hwW,
    get_testBit hWk hk wf hw1 hwW]
  by_cases ht : t < width
  · rw [set_bufBit hWk hk wf hw1 hwW hib x (m * width + t)]
    have hc : ¬ (i * width ≤ m * width + t ∧
        m * width + t < i * width + width) := by
      rcases Nat.lt_or_ge m i with hmlt | hmge
      · have h1 : (m + 1) * width ≤ i * width :=
          Nat.mul_le_mul_right _ (by omega)
        have e : (m + 1) * width = m * width + width := by ring
        omega
      · have hgt : i < m := by omega
        have h1 : (i + 1) * width ≤ m * width :=
          Nat.mul_le_mul_right _ (by omega)
        have e : (i + 1) * width = i * width + width := by ring
        omega
    rw [if_neg hc]
  · simp [ht]

/-- Writing back the value just read is a no-op on the whole buffer. -/
theorem set_get_same_eq {W k : Nat} (hWk : W = 2 ^ k) (hk : k ≤ 6)
    {data : List Nat} (wf : ∀ u ∈ data, u < 2 ^ W)
    {width : Nat} (hw1 : 1 ≤ width) (hwW : width ≤ W)
    {i : Nat} (hib : i * width + width ≤ data.length * W) :
    set W data i (get W data i width (2 ^ width - 1)) width (2 ^ width - 1) =
      data := by
  have hW0 : 0 < W := by rw [hWk]; exact Nat.pos_pow_of_pos _ (by omega)
  apply buf_ext hW0 (set_length W data i _ width (2 ^ width - 1))
    (set_wf wf i _ width (2 ^ width - 1)) wf
  intro p
  rw [set_bufBit hWk hk wf hw1 hwW hib _ p]
  by_cases hc : i * width ≤ p ∧ p < i * width + width
  · rw [if_pos hc]
    have hg : get W data i width (2 ^ width - 1) &&& (2 ^ width - 1) =
        get W data i width (2 ^ width - 1) :=
      Nat.and_pow_two_sub_one_of_lt_two_pow (get_lt_two_pow W data i width)
    rw [hg, get_testBit hWk hk wf hw1 hwW i (p - i * width)]
    have h1 : p - i * width < width := by omega
    have h2 : i * width + (p - i * width) = p := by omega
    rw [h2]
    simp [h1]
  · rw [if_neg hc]

theorem and_two_pow_eq_zero_iff (x n : Nat) :
    x &&& 2 ^ n = 0 ↔ x.testBit n = false := by
  constructor
  · intro h
    have h2 := congrArg (Nat.testBit · n) h
    simpa [Nat.testBit_and, Nat.testBit_two_pow_self] using h2
  · intro h
    apply Nat.eq_of_testBit_eq
    intro t
    by_cases htn : n = t
    · subst htn; simp [Nat.testBit_and, h]
    · simp [Nat.testBit_and, Nat.testBit_two_pow, htn]

theorem shl64_one_pow {n : Nat} (h : n < 64) : shl64 1 n = 2 ^ n := by
  simp only [shl64, if_pos h, Nat.shiftLeft_eq, Nat.one_mul, U64]
  exact Nat.mod_eq_of_lt (Nat.pow_lt_pow_right (by omega) h)

/-- For an aligned width, the in-word offset of any element leaves room for
the full element. -/
theorem aligned_da_bound {W k width : Nat} (hWk : W = 2 ^ k)
    (hw1 : 1 ≤ width) (hwW : width ≤ W) (hal : W % width = 0) (i : Nat) :
    i * width % W + width ≤ W := by
  have hW0 : 0 < W := by rw [hWk]; exact Nat.pos_pow_of_pos _ (by omega)
  have hdvdW : width ∣ W := Nat.dvd_of_mod_eq_zero hal
  have hdvd_da : width ∣ i * width % W :=
    (Nat.dvd_mod_iff hdvdW).mpr ⟨i, by ring⟩
  have hda : i * width % W < W := Nat.mod_lt _ hW0
  obtain ⟨q, hq⟩ := hdvd_da
  obtain ⟨mq, hm⟩ := hdvdW
  have h1 : q < mq := by
    by_contra hle
    push_neg at hle
    have h2 : width * mq ≤ width * q := Nat.mul_le_mul_left _ hle
    omega
  have h2 : width * (q + 1) ≤ width * mq := Nat.mul_le_mul_left _ (by omega)
  have e : width * (q + 1) = width * q + width := by ring
  omega

/-- The compile-time-width `get` agrees with the runtime-width `get` at
every width, including the single-bit and aligned specialisations. -/
theorem getT_eq_get {W k : Nat} (hWk : W = 2 ^ k) (hk : k ≤ 6)
    {data : List Nat} (wf : ∀ u ∈ data, u < 2 ^ W)
    {width : Nat} (hw1 : 1 ≤ width) (hwW : width ≤ W) (i : Nat) :
    getT width W data i = get W data i width (low_mask width) := by
  have hW0 : 0 < W := by rw [hWk]; exact Nat.pos_pow_of_pos _ (by omega)
  have hW64 : W ≤ 64 := by
    have h := Nat.pow_le_pow_right (show 1 ≤ 2 by omega) hk
    rw [hWk]; omega
  have hlm : low_mask width = 2 ^ width - 1 := low_mask_eq hw1 (by omega)
  by_cases h1 : width = 1
  · subst h1
    have hda : i % W < W := Nat.mod_lt _ hW0
    have hda64 : i % W < 64 := by omega
    have hget : get W data i 1 (low_mask 1) = (bufBit W data i).toNat := by
      apply Nat.eq_of_testBit_eq
      intro t
      rw [hlm, get_testBit hWk hk wf (by omega) hwW, Nat.testBit_bool_to_nat]
      by_cases ht : t = 0
      · subst ht; simp [Nat.mul_one]
      · simp [ht, show ¬ t < 1 by omega]
    rw [hget]
    simp only [getT, bufBit]
    rw [if_pos (trivial : True), shl64_one_pow hda64]
    by_cases hbit : (data.getD (i / W) 0).testBit (i % W)
    · have hc : data.getD (i / W) 0 &&& 2 ^ (i % W) ≠ 0 := by
        rw [Ne, and_two_pow_eq_zero_iff, hbit]
        simp
      rw [if_pos hc, hbit]
      rfl
    · have hbf : (data.getD (i / W) 0).testBit (i % W) = false := by
        rw [← Bool.not_eq_true]
        exact hbit
      have hc : data.getD (i / W) 0 &&& 2 ^ (i % W) = 0 := by
        rw [and_two_pow_eq_zero_iff]
        exact hbf
      rw [if_neg (not_not_intro hc), hbf]
      rfl
  · by_cases hal : W % width = 0
    · have hand : i * width &&& (W - 1) = i * width % W := by
        rw [hWk]; exact Nat.and_pow_two_sub_one_eq_mod (i * width) k
      have hbound := aligned_da_bound hWk hw1 hwW hal i
      simp only [getT, get, if_neg h1, if_pos hal]
      rw [hand, hlm]
      apply Nat.eq_of_testBit_eq
      intro t
      simp only [Nat.testBit_and, Nat.testBit_or, testBit_shl64,
        Nat.testBit_shiftRight, Nat.testBit_two_pow_sub_one]
      by_cases ht : t < width
      · have h2 : ¬ W - i * width % W ≤ t := by
          have := Nat.mod_lt (i * width) hW0
          omega
        simp [ht, h2]
      · simp [ht]
    · simp only [getT, get, if_neg h1, if_neg hal]

/-- The compile-time-width `set` agrees with the runtime-width `set` at
every width at least 2 (the aligned test only short-circuits the
`a = b` test, which always holds for aligned widths). -/
theorem setT_eq_set {W k : Nat} (hWk : W = 2 ^ k) (hk : k ≤ 6)
    {width : Nat} (hw2 : 2 ≤ width) (hwW : width ≤ W)
    (data : List Nat) (i x : Nat) :
    setT width W data i x = set W data i x width (low_mask width) := by
  have hW0 : 0 < W := by rw [hWk]; exact Nat.pos_pow_of_pos _ (by omega)
  have h1 : ¬ width = 1 := by omega
  simp only [setT, set]
  rw [if_neg h1]
  by_cases hal : W % width = 0
  · have hand : i * width &&& (W - 1) = i * width % W := by
      rw [hWk]; exact Nat.and_pow_two_sub_one_eq_mod (i * width) k
    have hbound := aligned_da_bound hWk (by omega) hwW hal i
    have hb : (i * width + width - 1) / W = i * width / W :=
      right_border_eq hW0 (by omega) hbound
    rw [if_pos (Or.inl hal), if_pos hb.symm]
  · by_cases hab : i * width / W = (i * width + width - 1) / W
    · rw [if_pos (Or.inr hab), if_pos hab]
    · rw [if_neg (by tauto), if_neg hab]

/-- The compile-time width-1 `set` behaves like the runtime `set` of the
*clamped* value `bool(x)`: any nonzero value stores a 1. -/
theorem setT_one_eq {W k : Nat} (hWk : W = 2 ^ k) (hk : k ≤ 6)
    (data : List Nat) (i x : Nat) :
    setT 1 W data i x =
      set W data i (if x = 0 then 0 else 1) 1 (low_mask 1) := by
  have hW0 : 0 < W := by rw [hWk]; exact Nat.pos_pow_of_pos _ (by omega)
  have hW64 : W ≤ 64 := by
    have h := Nat.pow_le_pow_right (show 1 ≤ 2 by omega) hk
    rw [hWk]; omega
  have hand : i &&& (W - 1) = i % W := by
    rw [hWk]; exact Nat.and_pow_two_sub_one_eq_mod i k
  have hda : i % W < W := Nat.mod_lt _ hW0
  have hda64 : i % W < 64 := by omega
  simp only [setT, set]
  rw [show i * 1 + 1 - 1 = i * 1 by omega,
    if_pos (rfl : i * 1 / W = i * 1 / W),
    show i * 1 = i from Nat.mul_one i, hand,
    shl64_one_pow hda64, low_mask0_eq hda64,
    low_mask_eq (by omega) (by omega)]
  set da := i % W with hdaeq
  set xa := data.getD (i / W) 0 with hxa
  have hpow : (2 : Nat) ^ da < U64 := by
    have := Nat.pow_lt_pow_right (show 1 < 2 by omega) hda64
    unfold U64
    exact this
  have hlm0U : (2 : Nat) ^ da - 1 < U64 := by
    have hp : (0 : Nat) < 2 ^ da := Nat.pos_pow_of_pos _ (by omega)
    omega
  have e0 : shl64 (not64 (2 ^ da - 1)) (1 - 1) = not64 (2 ^ da - 1) := by
    simp only [Nat.sub_self, shl64, if_pos (show 0 < 64 by omega),
      Nat.shiftLeft_zero]
    exact Nat.mod_eq_of_lt (not64_lt _ hlm0U)
  rw [if_pos (trivial : True), e0]
  congr 1
  apply Nat.eq_of_testBit_eq
  intro t
  rw [Nat.testBit_mod_two_pow, Nat.testBit_mod_two_pow]
  by_cases htW : t < W
  case neg => simp [htW]
  have ht64 : t < 64 := by omega
  have hU1 : (U64 - 1 : Nat) = 2 ^ 64 - 1 := rfl
  by_cases hx : x = 0
  · simp only [hx, if_pos rfl]
    simp only [Nat.testBit_or, Nat.testBit_and, testBit_shl64,
      testBit_not64 hpow, testBit_not64 hlm0U,
      Nat.testBit_two_pow, Nat.testBit_two_pow_sub_one, Nat.zero_and,
      Nat.zero_testBit, Nat.zero_shiftLeft]
    by_cases htd : da = t
    · subst htd
      simp [htW, ht64, shl64]
      intro _ h _
      omega
    · by_cases hlt : t < da
      · by_cases h1t : 1 ≤ t
        · have h3 : t - 1 - (1 - 1) < da := by omega
          simp [htW, ht64, htd, hlt, h1t, h3, shl64]
          exact fun h _ _ => h
        · simp [htW, ht64, htd, hlt, h1t, shl64]
      · have h1t : 1 ≤ t := by omega
        have h3 : ¬ t - 1 - (1 - 1) < da := by omega
        have h4 : ¬ t < da := hlt
        simp [htW, ht64, htd, h1t, h3, h4, shl64]
        exact fun _ => ⟨by omega, by omega⟩
  · simp only [hx, if_neg hx]
    simp only [Nat.testBit_or, Nat.testBit_and, testBit_shl64,
      testBit_not64 hpow, testBit_not64 hlm0U, hU1,
      Nat.testBit_two_pow, Nat.testBit_two_pow_sub_one]
    have hone : ∀ m : Nat, Nat.testBit 1 m = decide (m = 0) := by
      intro m
      rw [show (1 : Nat) = 2 ^ 0 by norm_num, Nat.testBit_two_pow]
      by_cases hm : m = 0 <;> simp [hm]
      omega
    have hmaxbit : ∀ m : Nat, Nat.testBit 18446744073709551615 m = decide (m < 64) := by
      intro m
      rw [show (18446744073709551615 : Nat) = 2 ^ 64 - 1 by norm_num,
        Nat.testBit_two_pow_sub_one]
    by_cases htd : da = t
    · subst htd
      simp [htW, ht64, hone, hmaxbit]
    · by_cases hlt : t < da
      · by_cases h1t : 1 ≤ t
        · have h3 : t - 1 - (1 - 1) < da := by omega
          simp [htW, ht64, htd, hlt, h1t, h3, hone, hmaxbit,
            show ¬ da ≤ t by omega]
          exact fun h _ _ => h
        · simp [htW, ht64, htd, hlt, h1t, hone, hmaxbit,
            show ¬ da ≤ t by omega]
      · have h1t : 1 ≤ t := by omega
        have h3 : ¬ t - 1 - (1 - 1) < da := by omega
        have h6 : ¬ t - da = 0 := by omega
        simp [htW, ht64, htd, hlt, h1t, h3, h6, hone, hmaxbit,
          show da ≤ t by omega]
        exact fun _ => ⟨by omega, by omega⟩

end word_packing

/-- **C8**: for every `bits` in `[1, 64]` (64 = bit width of `uintmax_t`,
the type `low_mask` operates on), `low_mask bits` is the mask with exactly
the low `bits` bits set; in particular at the boundary `bits = 64` it is
the all-bits-set mask, although the formula never shifts by the full
width. -/
theorem claim_C8_low_mask (bits : Nat) (h1 : 1 ≤ bits) (h2 : bits ≤ 64) :
    word_packing.low_mask bits = 2 ^ bits - 1 ∧
    word_packing.low_mask 64 = 2 ^ 64 - 1 :=
  ⟨word_packing.low_mask_eq h1 h2,
   word_packing.low_mask_eq (by norm_num) (by norm_num)⟩

theorem claim_C8_low_mask_witness :
    (1 ≤ 13 ∧ 13 ≤ 64) ∧
    (word_packing.low_mask 13 = 2 ^ 13 - 1 ∧
     word_packing.low_mask 64 = 2 ^ 64 - 1) :=
  ⟨⟨by decide, by decide⟩, claim_C8_low_mask 13 (by decide) (by decide)⟩

/-- **C7 (counterexample)**: `num_packs_required` does *not* return the exact
ceiling for every count: at `count = 2 ^ 58`, `width = 64` on a 64-bit
storage word the `size_t` product `count * width` wraps to `0` and the
function returns `0` instead of `⌈2 ^ 58 · 64 / 64⌉ = 2 ^ 58`. -/
theorem claim_C7_counterexample :
    word_packing.num_packs_required 64 (2 ^ 58) 64 = 0 ∧
    word_packing.ceil_div_spec (2 ^ 58 * 64) 64 = 2 ^ 58 ∧
    (0 : Nat) ≠ 2 ^ 58 := by
  refine ⟨by decide, by decide, by decide⟩

/-- **C7 (amended)**: for every count and width whose bit total stays inside
the native 64-bit range (`count * width + storage_word_bits ≤ 2 ^ 64`),
`num_packs_required` returns exactly `⌈count · width / storage_word_bits⌉`;
outside that range the `size_t` computation wraps around and the result is
not the true ceiling. -/
theorem claim_C7_num_packs_required (D num width : Nat) (hD : 0 < D)
    (hov : num * width + D ≤ 2 ^ 64) :
    word_packing.num_packs_required D num width =
      word_packing.ceil_div_spec (num * width) D := by
  unfold word_packing.num_packs_required
  have hlt : num * width < 2 ^ 64 := by omega
  have : (num * width) % word_packing.U64 = num * width :=
    Nat.mod_eq_of_lt hlt
  rw [this]
  exact word_packing.idiv_ceil_eq hD hov

theorem claim_C7_num_packs_required_witness :
    (0 < 64 ∧ 100 * 13 + 64 ≤ 2 ^ 64) ∧
    word_packing.num_packs_required 64 100 13 =
      word_packing.ceil_div_spec (100 * 13) 64 :=
  ⟨⟨by decide, by decide⟩,
   claim_C7_num_packs_required 64 100 13 (by decide) (by decide)⟩

open word_packing

/-- **C1 (counterexample)**: the width-1 compile-time specialisation does
*not* satisfy `set(i, x); get(i) == x & low_mask(w)`: writing `x = 2`
(`x & low_mask(1) = 0`) through `set<1>` stores `bool(2) = 1`, so the
subsequent `get` returns `1`, not `0`. -/
theorem claim_C1_counterexample :
    getT 1 64 (setT 1 64 [0] 0 2) 0 ≠ 2 &&& low_mask 1 := by decide

/-- **C1 (amended)**: after `set` at width `w`, `get` returns
`x & low_mask(w)` — for the runtime-width codec at every `w` in
`[1, storage_word_bits]` and for the compile-time codec at every `w` in
`[2, storage_word_bits]` (which includes the aligned special case).  The
width-1 compile-time specialisation instead clamps through `bool(x)`: the
subsequent `get` returns 1 for every nonzero `x` and 0 for `x = 0`. -/
theorem claim_C1_set_get_roundtrip {W k : Nat} (hWk : W = 2 ^ k) (hk : k ≤ 6)
    {data : List Nat} (wf : ∀ u ∈ data, u < 2 ^ W) (i x : Nat) :
    (∀ width, 1 ≤ width → width ≤ W →
      i * width + width ≤ data.length * W →
      get W (set W data i x width (low_mask width)) i width (low_mask width) =
        x &&& low_mask width) ∧
    (∀ width, 2 ≤ width → width ≤ W →
      i * width + width ≤ data.length * W →
      getT width W (setT width W data i x) i = x &&& low_mask width) ∧
    (i * 1 + 1 ≤ data.length * W →
      getT 1 W (setT 1 W data i x) i = if x = 0 then 0 else 1) := by
  have hW64 : W ≤ 64 := by
    have h := Nat.pow_le_pow_right (show 1 ≤ 2 by omega) hk
    rw [hWk]; omega
  have hW1 : 1 ≤ W := by rw [hWk]; exact Nat.one_le_two_pow
  refine ⟨?_, ?_, ?_⟩
  · intro width hw1 hwW hib
    rw [low_mask_eq hw1 (by omega)]
    exact get_set_same hWk hk wf hw1 hwW hib x
  · intro width hw2 hwW hib
    rw [setT_eq_set hWk hk hw2 hwW,
      getT_eq_get hWk hk (set_wf wf i x width (low_mask width))
        (by omega) hwW,
      low_mask_eq (by omega) (by omega)]
    exact get_set_same hWk hk wf (by omega) hwW hib x
  · intro hib1
    rw [setT_one_eq hWk hk,
      getT_eq_get hWk hk
        (set_wf wf i (if x = 0 then 0 else 1) 1 (low_mask 1))
        (by omega) hW1,
      low_mask_eq (by omega) (by omega),
      get_set_same hWk hk wf (by omega) hW1 hib1]
    by_cases hx : x = 0 <;> simp [hx]

theorem claim_C1_set_get_roundtrip_witness :
    (1 ≤ 13 ∧ 13 ≤ 64 ∧ 4 * 13 + 13 ≤ [0, 0].length * 64) ∧
    get 64 (set 64 [0, 0] 4 9999 13 (low_mask 13)) 4 13 (low_mask 13) =
      9999 &&& low_mask 13 :=
  ⟨⟨by decide, by decide, by decide⟩,
   (@claim_C1_set_get_roundtrip 64 6 (by decide) (by decide) [0, 0]
      (by decide) 4 9999).1 13 (by decide) (by decide) (by decide)⟩

/-- **C2 (counterexample)**: the runtime-width codec and the width-1
compile-time codec do *not* leave identical buffers for every value: at
`x = 2` the runtime `set` stores `2 & 1 = 0` while `set<1>` stores
`bool(2) = 1`. -/
theorem claim_C2_counterexample :
    setT 1 64 [0] 0 2 ≠ set 64 [0] 0 2 1 (low_mask 1) := by decide

/-- **C2 (amended)**: runtime-width and compile-time-width codecs agree —
`get`s are identical for every width in `[1, storage_word_bits]`
(including the single-bit and aligned specialisations), and `set`s are
identical for every width in `[2, storage_word_bits]`.  At width 1 the
compile-time `set` stores the *clamped* value `bool(x)` where the runtime
`set` stores `x & 1`; the two therefore coincide exactly for `x ≤ 1`
(in particular for every in-range value) and differ for even nonzero
`x`. -/
theorem claim_C2_codec_equivalence {W k : Nat} (hWk : W = 2 ^ k) (hk : k ≤ 6)
    {data : List Nat} (wf : ∀ u ∈ data, u < 2 ^ W) (i x : Nat) :
    (∀ width, 1 ≤ width → width ≤ W →
      getT width W data i = get W data i width (low_mask width)) ∧
    (∀ width, 2 ≤ width → width ≤ W →
      setT width W data i x = set W data i x width (low_mask width)) ∧
    (setT 1 W data i x =
      set W data i (if x = 0 then 0 else 1) 1 (low_mask 1)) ∧
    (x ≤ 1 → setT 1 W data i x = set W data i x 1 (low_mask 1)) := by
  refine ⟨fun width hw1 hwW => getT_eq_get hWk hk wf hw1 hwW i,
    fun width hw2 hwW => setT_eq_set hWk hk hw2 hwW data i x,
    setT_one_eq hWk hk data i x, ?_⟩
  intro hx1
  rw [setT_one_eq hWk hk data i x]
  rcases Nat.le_one_iff_eq_zero_or_eq_one.mp hx1 with h | h <;> subst h <;> simp

theorem claim_C2_codec_equivalence_witness :
    (1 ≤ 13 ∧ 13 ≤ 64) ∧
    getT 13 64 [77, 5] 4 = get 64 [77, 5] 4 13 (low_mask 13) :=
  ⟨⟨by decide, by decide⟩,
   (@claim_C2_codec_equivalence 64 6 (by decide) (by decide) [77, 5]
      (by decide) 4 0).1 13 (by decide) (by decide)⟩

/-- **C3**: `set(buffer, i, x)` at width `w` modifies only the bit range
`[i*w, i*w + w)` of the buffer — every bit outside that range is
unchanged, and `get(m)` is unchanged for every index `m ≠ i` — for the
runtime-width codec and for the compile-time codec (including the width-1
specialisation). -/
theorem claim_C3_set_frame {W k : Nat} (hWk : W = 2 ^ k) (hk : k ≤ 6)
    {data : List Nat} (wf : ∀ u ∈ data, u < 2 ^ W)
    {width : Nat} (hw1 : 1 ≤ width) (hwW : width ≤ W)
    {i : Nat} (hib : i * width + width ≤ data.length * W) (x : Nat) :
    (∀ p, p < i * width ∨ i * width + width ≤ p →
      bufBit W (set W data i x width (low_mask width)) p = bufBit W data p) ∧
    (∀ m, m ≠ i →
      get W (set W data i x width (low_mask width)) m width (low_mask width) =
        get W data m width (low_mask width)) ∧
    (∀ p, p < i * width ∨ i * width + width ≤ p →
      bufBit W (setT width W data i x) p = bufBit W data p) ∧
    (∀ m, m ≠ i →
      getT width W (setT width W data i x) m = getT width W data m) := by
  have hW64 : W ≤ 64 := by
    have h := Nat.pow_le_pow_right (show 1 ≤ 2 by omega) hk
    rw [hWk]; omega
  have hlm : low_mask width = 2 ^ width - 1 := low_mask_eq hw1 (by omega)
  have hframe : ∀ y p, p < i * width ∨ i * width + width ≤ p →
      bufBit W (set W data i y width (low_mask width)) p = bufBit W data p := by
    intro y p hp
    rw [hlm, set_bufBit hWk hk wf hw1 hwW hib y p, if_neg (by omega)]
  have hgetframe : ∀ y m, m ≠ i →
      get W (set W data i y width (low_mask width)) m width (low_mask width) =
        get W data m width (low_mask width) := by
    intro y m hm
    rw [hlm]
    exact set_frame_get hWk hk wf hw1 hwW hib y hm
  by_cases hw2 : 2 ≤ width
  case pos =>
    have hs : setT width W data i x = set W data i x width (low_mask width) :=
      setT_eq_set hWk hk hw2 hwW data i x
    refine ⟨hframe x, hgetframe x, ?_, ?_⟩
    · intro p hp
      rw [hs]
      exact hframe x p hp
    · intro m hm
      rw [hs,
        getT_eq_get hWk hk (set_wf wf i x width (low_mask width)) hw1 hwW,
        getT_eq_get hWk hk wf hw1 hwW]
      exact hgetframe x m hm
  case neg =>
    have h1 : width = 1 := by omega
    subst h1
    have hs : setT 1 W data i x =
        set W data i (if x = 0 then 0 else 1) 1 (low_mask 1) :=
      setT_one_eq hWk hk data i x
    refine ⟨hframe x, hgetframe x, ?_, ?_⟩
    · intro p hp
      rw [hs]
      exact hframe _ p hp
    · intro m hm
      rw [hs,
        getT_eq_get hWk hk (set_wf wf i _ 1 (low_mask 1)) hw1 hwW,
        getT_eq_get hWk hk wf hw1 hwW]
      exact hgetframe _ m hm

theorem claim_C3_set_frame_witness :
    bufBit 64 (set 64 [0, 0] 2 5 13 (low_mask 13)) 1 = bufBit 64 [0, 0] 1 ∧
    get 64 (set 64 [0, 0] 2 5 13 (low_mask 13)) 3 13 (low_mask 13) =
      get 64 [0, 0] 3 13 (low_mask 13) :=
  ⟨(@claim_C3_set_frame 64 6 (by decide) (by decide) [0, 0] (by decide) 13
      (by decide) (by decide) 2 (by decide) 5).1 1 (by decide),
   (@claim_C3_set_frame 64 6 (by decide) (by decide) [0, 0] (by decide) 13
      (by decide) (by decide) 2 (by decide) 5).2.1 3 (by decide)⟩

/-- **C10**: writing back a value just read is a no-op on the storage: for
every valid width, buffer and in-bounds index,
`set(buffer, i, get(buffer, i))` leaves every storage word bit-for-bit
unchanged. -/
theorem claim_C10_set_get_noop {W k : Nat} (hWk : W = 2 ^ k) (hk : k ≤ 6)
    {data : List Nat} (wf : ∀ u ∈ data, u < 2 ^ W)
    {width : Nat} (hw1 : 1 ≤ width) (hwW : width ≤ W)
    {i : Nat} (hib : i * width + width ≤ data.length * W) :
    set W data i (get W data i width (low_mask width)) width
      (low_mask width) = data := by
  have hW64 : W ≤ 64 := by
    have h := Nat.pow_le_pow_right (show 1 ≤ 2 by omega) hk
    rw [hWk]; omega
  rw [low_mask_eq hw1 (by omega)]
  exact set_get_same_eq hWk hk wf hw1 hwW hib

theorem claim_C10_set_get_noop_witness :
    set 64 [123456789] 3 (get 64 [123456789] 3 7 (low_mask 7)) 7
      (low_mask 7) = [123456789] :=
  @claim_C10_set_get_noop 64 6 (by decide) (by decide) [123456789]
    (by decide) 7 (by decide) (by decide) 3 (by decide)

/-- **C9**: a default-constructed packed vector — both the runtime-width
`pdinklag::PackedIntVector` and the fixed-width
`word_packing::PackedFixedWidthIntVector` flavour — has size 0, capacity
0, is empty and holds no buffer; the runtime-width flavour additionally
reports `width() == 0` in this state, while a vector built by the sized
constructor reports exactly the (positive) width it was given. -/
theorem claim_C9_default_ctor :
    defaultPFWVector.size = 0 ∧ defaultPFWVector.capacity = 0 ∧
    defaultPFWVector.empty = true ∧ defaultPFWVector.data = [] ∧
    pdinklag.defaultPackedIntVector.size = 0 ∧
    pdinklag.defaultPackedIntVector.capacity = 0 ∧
    pdinklag.defaultPackedIntVector.empty = true ∧
    pdinklag.defaultPackedIntVector.data = [] ∧
    pdinklag.defaultPackedIntVector.width = 0 ∧
    (∀ W s w, (pdinklag.mkPackedIntVector W s w).width = w) :=
  ⟨rfl, rfl, rfl, rfl, rfl, rfl, rfl, rfl, rfl, fun _ _ _ => rfl⟩

/-- **C4**: the state invariant `buffer length = packs_required(capacity)`
is *broken* by copy assignment.  A 64-bit-width vector with size 1 and
capacity 2 (a reachable state: construct with size 1, then `reserve(2)`)
satisfies the invariant (2 allocated words); copy-assigning from it
produces capacity 2 but a buffer of only `num_packs_required(1, 64) = 1`
word, while the invariant demands `num_packs_required(2, 64) = 2`. -/
theorem claim_C4_copy_breaks_invariant :
    ((PackedFixedWidthIntVector.reserve 64 64 (ofSize 64 64 1) 2).size = 1 ∧
     (PackedFixedWidthIntVector.reserve 64 64 (ofSize 64 64 1) 2).capacity = 2 ∧
     (PackedFixedWidthIntVector.reserve 64 64 (ofSize 64 64 1) 2).data.length =
       num_packs_required 64 2 64) ∧
    (PackedFixedWidthIntVector.copyAssign 64 64
        (PackedFixedWidthIntVector.reserve 64 64 (ofSize 64 64 1) 2)).capacity = 2 ∧
    (PackedFixedWidthIntVector.copyAssign 64 64
        (PackedFixedWidthIntVector.reserve 64 64 (ofSize 64 64 1) 2)).data.length = 1 ∧
    num_packs_required 64 2 64 = 2 := by
  refine ⟨⟨by decide, by decide, by decide⟩, by decide, by decide, by decide⟩

theorem num_packs_required_eq {W : Nat} (hW : 0 < W) {n width : Nat}
    (h : n * width + W ≤ 2 ^ 64) :
    num_packs_required W n width = (n * width + W - 1) / W := by
  unfold num_packs_required
  rw [Nat.mod_eq_of_lt (show n * width < U64 by unfold U64; omega),
    idiv_ceil_eq hW h]
  exact (add_sub_one_div_eq_ceil hW _).symm

theorem le_ceil_div_mul {W : Nat} (hW : 0 < W) (a : Nat) :
    a ≤ ((a + W - 1) / W) * W := by
  have h := Nat.div_add_mod (a + W - 1) W
  have hr : (a + W - 1) % W < W := Nat.mod_lt _ hW
  rw [Nat.mul_comm]
  omega

theorem ceil_div_mono {W a b : Nat} (h : a ≤ b) :
    (a + W - 1) / W ≤ (b + W - 1) / W :=
  Nat.div_le_div_right (by omega)

theorem copyWords_length {src dst : List Nat} {n : Nat}
    (hsrc : n ≤ src.length) (hdst : n ≤ dst.length) :
    (copyWords src dst n).length = dst.length := by
  unfold copyWords
  rw [List.length_append, List.length_take, List.length_drop]
  omega

theorem copyWords_getD {src dst : List Nat} {n : Nat}
    (hsrc : n ≤ src.length) (idx : Nat) :
    (copyWords src dst n).getD idx 0 =
      if idx < n then src.getD idx 0 else dst.getD idx 0 := by
  unfold copyWords
  simp only [List.getD_eq_getElem?_getD]
  by_cases h : idx < n
  · rw [List.getElem?_append_left (by rw [List.length_take]; omega),
      if_pos h, List.getElem?_take, if_pos h]
  · rw [List.getElem?_append_right (by rw [List.length_take]; omega),
      if_neg h, List.length_take, List.getElem?_drop]
    have hmin : min n src.length = n := Nat.min_eq_left hsrc
    rw [hmin]
    have e : n + (idx - n) = idx := by omega
    rw [e]

theorem copyWords_wf {W : Nat} {src dst : List Nat} {n : Nat}
    (h1 : ∀ u ∈ src, u < 2 ^ W) (h2 : ∀ u ∈ dst, u < 2 ^ W) :
    ∀ u ∈ copyWords src dst n, u < 2 ^ W := by
  intro u hu
  unfold copyWords at hu
  rcases List.mem_append.mp hu with h | h
  · exact h1 u (List.mem_of_mem_take h)
  · exact h2 u (List.mem_of_mem_drop h)

theorem bufBit_copyWords {W : Nat} (hW : 0 < W) {src dst : List Nat} {n : Nat}
    (hsrc : n ≤ src.length) {p : Nat} (hp : p < n * W) :
    bufBit W (copyWords src dst n) p = bufBit W src p := by
  unfold bufBit
  rw [copyWords_getD hsrc]
  have h : p / W < n := by
    rw [Nat.div_lt_iff_lt_mul hW]
    omega
  rw [if_pos h]

/-- Two buffers that agree on all bits below `B` give the same read for any
element whose bit range lies below `B`. -/
theorem get_congr_prefix {W k : Nat} (hWk : W = 2 ^ k) (hk : k ≤ 6)
    {d1 d2 : List Nat} (wf1 : ∀ u ∈ d1, u < 2 ^ W) (wf2 : ∀ u ∈ d2, u < 2 ^ W)
    {width : Nat} (hw1 : 1 ≤ width) (hwW : width ≤ W)
    {B m : Nat} (hB : m * width + width ≤ B)
    (h : ∀ p, p < B → bufBit W d1 p = bufBit W d2 p) :
    get W d1 m width (2 ^ width - 1) = get W d2 m width (2 ^ width - 1) := by
  apply Nat.eq_of_testBit_eq
  intro t
  rw [get_testBit hWk hk wf1 hw1 hwW, get_testBit hWk hk wf2 hw1 hwW]
  by_cases ht : t < width
  · rw [h (m * width + t) (by omega)]
  · simp [ht]

/-- Uniform bridge: the compile-time `set` is the runtime `set` of the
(possibly clamped) value. -/
theorem setT_as_runtime {W k : Nat} (hWk : W = 2 ^ k) (hk : k ≤ 6)
    {width : Nat} (hw1 : 1 ≤ width) (hwW : width ≤ W)
    (data : List Nat) (i x : Nat) :
    setT width W data i x =
      set W data i (if width = 1 then (if x = 0 then 0 else 1) else x)
        width (low_mask width) := by
  by_cases h1 : width = 1
  · subst h1
    simp only [if_pos rfl]
    exact setT_one_eq hWk hk data i x
  · rw [if_neg h1]
    exact setT_eq_set hWk hk (by omega) hwW data i x

theorem next_power_of_two_le (n : Nat) : n ≤ next_power_of_two n :=
  Nat.le_pow_clog (by omega) n

theorem next_power_of_two_succ_of_lt {n : Nat}
    (h : n < next_power_of_two n) :
    next_power_of_two (n + 1) = next_power_of_two n := by
  unfold next_power_of_two at *
  congr 1
  apply Nat.le_antisymm
  · exact (Nat.le_pow_iff_clog_le (by omega)).mp (by omega)
  · exact Nat.clog_mono_right _ (by omega)

theorem next_power_of_two_succ_of_eq {n : Nat} (h1 : 1 ≤ n)
    (h : next_power_of_two n = n) :
    next_power_of_two (n + 1) = 2 * n := by
  unfold next_power_of_two at *
  have hle : n + 1 ≤ 2 ^ (Nat.clog 2 n + 1) := by
    rw [Nat.pow_succ]
    omega
  have hup : Nat.clog 2 (n + 1) ≤ Nat.clog 2 n + 1 :=
    (Nat.le_pow_iff_clog_le (by omega)).mp hle
  have hdown : Nat.clog 2 n + 1 ≤ Nat.clog 2 (n + 1) := by
    by_contra hc
    push_neg at hc
    have h2 : n + 1 ≤ 2 ^ Nat.clog 2 n :=
      (Nat.le_pow_iff_clog_le (by omega)).mpr (by omega)
    omega
  have he : Nat.clog 2 (n + 1) = Nat.clog 2 n + 1 := by omega
  rw [he, Nat.pow_succ]
  omega

theorem push_back_size_capacity (width W : Nat)
    (v : PackedFixedWidthIntVector) (hsc : v.size ≤ v.capacity) (x : Nat) :
    (PackedFixedWidthIntVector.push_back width W v x).size = v.size + 1 ∧
    (PackedFixedWidthIntVector.push_back width W v x).capacity =
      (if v.size = v.capacity
       then (if v.capacity = 0 then 1 else 2 * v.capacity)
       else v.capacity) := by
  unfold PackedFixedWidthIntVector.push_back
  by_cases hc : v.capacity ≤ v.size
  · have heq : v.size = v.capacity := by omega
    rw [if_pos hc, if_pos heq]
    unfold PackedFixedWidthIntVector.reserve
    have hlt : v.capacity < (if v.capacity = 0 then 1 else 2 * v.capacity) := by
      by_cases h0 : v.capacity = 0 <;> simp [h0]
      omega
    rw [if_pos hlt]
    unfold PackedFixedWidthIntVector.resize ofSize PackedFixedWidthIntVector.set
    simp only
    rw [if_pos (show v.size ≤ (if v.capacity = 0 then 1 else 2 * v.capacity) by omega)]
    exact ⟨rfl, rfl⟩
  · rw [if_neg hc, if_neg (show ¬ v.size = v.capacity by omega)]
    unfold PackedFixedWidthIntVector.set
    simp only
    trivial

theorem reserve_spec {W k : Nat} (hWk : W = 2 ^ k) (hk : k ≤ 6)
    {width : Nat} (hw1 : 1 ≤ width) (hwW : width ≤ W)
    (v : PackedFixedWidthIntVector) (c : Nat)
    (hsc : v.size ≤ v.capacity)
    (hlen : v.data.length = num_packs_required W v.capacity width)
    (hwf : ∀ u ∈ v.data, u < 2 ^ W)
    (hovc : c * width + W ≤ 2 ^ 64)
    (hovcap : v.capacity * width + W ≤ 2 ^ 64) :
    (PackedFixedWidthIntVector.reserve width W v c).size = v.size ∧
    (PackedFixedWidthIntVector.reserve width W v c).capacity =
      max v.capacity c ∧
    (PackedFixedWidthIntVector.reserve width W v c).data.length =
      num_packs_required W (max v.capacity c) width ∧
    (∀ u ∈ (PackedFixedWidthIntVector.reserve width W v c).data, u < 2 ^ W) ∧
    (∀ m, m < v.size →
      (PackedFixedWidthIntVector.reserve width W v c).get width W m =
        v.get width W m) := by
  have hW0 : 0 < W := by rw [hWk]; exact Nat.pos_pow_of_pos _ (by omega)
  have hW64 : W ≤ 64 := by
    have h := Nat.pow_le_pow_right (show 1 ≤ 2 by omega) hk
    rw [hWk]; omega
  have hovsz : v.size * width + W ≤ 2 ^ 64 := by
    have h := Nat.mul_le_mul_right width hsc
    omega
  have hnsz : num_packs_required W v.size width =
      (v.size * width + W - 1) / W := num_packs_required_eq hW0 hovsz
  have hncap : num_packs_required W v.capacity width =
      (v.capacity * width + W - 1) / W := num_packs_required_eq hW0 hovcap
  unfold PackedFixedWidthIntVector.reserve
  by_cases hcc : v.capacity < c
  case neg =>
    rw [if_neg hcc]
    have hmax : max v.capacity c = v.capacity := Nat.max_eq_left (by omega)
    rw [hmax]
    exact ⟨rfl, rfl, hlen, hwf, fun m _ => rfl⟩
  case pos =>
    rw [if_pos hcc]
    have hmax : max v.capacity c = c := Nat.max_eq_right (by omega)
    rw [hmax]
    have hc1 : 0 < c := by omega
    have hnc : num_packs_required W c width = (c * width + W - 1) / W :=
      num_packs_required_eq hW0 hovc
    have hsrc : num_packs_required W v.size width ≤ v.data.length := by
      rw [hlen, hnsz, hncap]
      exact ceil_div_mono (Nat.mul_le_mul_right _ hsc)
    have hdstlen : num_packs_required W v.size width ≤
        (List.replicate (num_packs_required W c width) 0).length := by
      rw [List.length_replicate, hnsz, hnc]
      exact ceil_div_mono (Nat.mul_le_mul_right _ (by omega))
    have hzwf : ∀ u ∈ List.replicate (num_packs_required W c width) (0 : Nat),
        u < 2 ^ W := by
      intro u hu
      rw [List.eq_of_mem_replicate hu]
      exact Nat.pos_pow_of_pos _ (by omega)
    unfold PackedFixedWidthIntVector.resize ofSize
    simp only
    rw [if_pos hc1, if_pos (show v.size ≤ c by omega)]
    have hwf2 : ∀ u ∈ copyWords v.data
        (List.replicate (num_packs_required W c width) 0)
        (num_packs_required W v.size width), u < 2 ^ W :=
      copyWords_wf hwf hzwf
    refine ⟨rfl, rfl, ?_, hwf2, ?_⟩
    · rw [copyWords_length hsrc hdstlen, List.length_replicate]
    · intro m hm
      show getT width W (copyWords v.data
        (List.replicate (num_packs_required W c width) 0)
        (num_packs_required W v.size width)) m = getT width W v.data m
      rw [getT_eq_get hWk hk hwf2 hw1 hwW, getT_eq_get hWk hk hwf hw1 hwW,
        low_mask_eq hw1 (by omega)]
      have hbound : m * width + width ≤
          num_packs_required W v.size width * W := by
        have h1 : (m + 1) * width ≤ v.size * width :=
          Nat.mul_le_mul_right _ (by omega)
        have e : (m + 1) * width = m * width + width := by ring
        have h2 : v.size * width ≤ num_packs_required W v.size width * W := by
          rw [hnsz]
          exact le_ceil_div_mul hW0 _
        omega
      exact get_congr_prefix hWk hk hwf2 hwf hw1 hwW hbound
        (fun p hp => bufBit_copyWords hW0 hsrc hp)

theorem push_back_spec {W k : Nat} (hWk : W = 2 ^ k) (hk : k ≤ 6)
    {width : Nat} (hw1 : 1 ≤ width) (hwW : width ≤ W)
    (v : PackedFixedWidthIntVector) (x : Nat)
    (hsc : v.size ≤ v.capacity)
    (hlen : v.data.length = num_packs_required W v.capacity width)
    (hwf : ∀ u ∈ v.data, u < 2 ^ W)
    (hov : (2 * v.capacity + 1) * width + W ≤ 2 ^ 64) :
    (PackedFixedWidthIntVector.push_back width W v x).data.length =
      num_packs_required W
        (PackedFixedWidthIntVector.push_back width W v x).capacity width ∧
    (∀ u ∈ (PackedFixedWidthIntVector.push_back width W v x).data,
      u < 2 ^ W) ∧
    (∀ m, m < v.size →
      (PackedFixedWidthIntVector.push_back width W v x).get width W m =
        v.get width W m) ∧
    ((PackedFixedWidthIntVector.push_back width W v x).get width W v.size =
      if width = 1 then (if x = 0 then 0 else 1)
      else x &&& low_mask width) := by
  have hW0 : 0 < W := by rw [hWk]; exact Nat.pos_pow_of_pos _ (by omega)
  have hW64 : W ≤ 64 := by
    have h := Nat.pow_le_pow_right (show 1 ≤ 2 by omega) hk
    rw [hWk]; omega
  have hlm : low_mask width = 2 ^ width - 1 := low_mask_eq hw1 (by omega)
  set c0 := (if v.capacity = 0 then 1 else 2 * v.capacity) with hc0
  set v1 := (if v.capacity ≤ v.size
    then PackedFixedWidthIntVector.reserve width W v c0 else v) with hv1
  have hpush : PackedFixedWidthIntVector.push_back width W v x =
      { PackedFixedWidthIntVector.set width W v1 v1.size x with
        size := v1.size + 1 } := rfl
  have hc0b : c0 ≤ 2 * v.capacity + 1 := by
    rw [hc0]
    by_cases h0 : v.capacity = 0 <;> simp [h0] <;> omega
  have hcapb : v.capacity * width + W ≤ 2 ^ 64 := by
    have h := Nat.mul_le_mul_right width
      (show v.capacity ≤ 2 * v.capacity + 1 by omega)
    omega
  have hc0ov : c0 * width + W ≤ 2 ^ 64 := by
    have h := Nat.mul_le_mul_right width hc0b
    omega
  have hv1facts : v1.size = v.size ∧ v.size < v1.capacity ∧
      v1.capacity ≤ 2 * v.capacity + 1 ∧
      v1.data.length = num_packs_required W v1.capacity width ∧
      (∀ u ∈ v1.data, u < 2 ^ W) ∧
      (∀ m, m < v.size → v1.get width W m = v.get width W m) := by
    rw [hv1]
    by_cases hcc : v.capacity ≤ v.size
    · rw [if_pos hcc]
      obtain ⟨r1, r2, r3, r4, r5⟩ :=
        reserve_spec hWk hk hw1 hwW v c0 hsc hlen hwf hc0ov hcapb
      have hcmax : max v.capacity c0 = c0 := by
        apply Nat.max_eq_right
        rw [hc0]
        by_cases h0 : v.capacity = 0 <;> simp [h0] <;> omega
      have hsltc0 : v.size < c0 := by
        rw [hc0]
        by_cases h0 : v.capacity = 0 <;> simp [h0] <;> omega
      refine ⟨r1, ?_, ?_, ?_, r4, r5⟩
      · rw [r2, hcmax]; exact hsltc0
      · rw [r2, hcmax]; exact hc0b
      · rw [r2]; exact r3
    · rw [if_neg hcc]
      exact ⟨rfl, by omega, by omega, hlen, hwf, fun m _ => rfl⟩
  obtain ⟨h1, h2, h2b, h3, h4, h5⟩ := hv1facts
  have hv1ov : v1.capacity * width + W ≤ 2 ^ 64 := by
    have h := Nat.mul_le_mul_right width h2b
    omega
  have hlen1 : v1.data.length = (v1.capacity * width + W - 1) / W := by
    rw [h3, num_packs_required_eq hW0 hv1ov]
  have hib1 : v.size * width + width ≤ v1.data.length * W := by
    have ha : (v.size + 1) * width ≤ v1.capacity * width :=
      Nat.mul_le_mul_right _ (by omega)
    have hb : v1.capacity * width ≤ v1.data.length * W := by
      rw [hlen1]
      exact le_ceil_div_mul hW0 _
    have e : (v.size + 1) * width = v.size * width + width := by ring
    omega
  rw [hpush]
  have hsetrt : setT width W v1.data v1.size x =
      set W v1.data v1.size
        (if width = 1 then (if x = 0 then 0 else 1) else x)
        width (low_mask width) := setT_as_runtime hWk hk hw1 hwW v1.data v1.size x
  refine ⟨?_, ?_, ?_, ?_⟩
  · show (setT width W v1.data v1.size x).length =
      num_packs_required W v1.capacity width
    rw [hsetrt, set_length, h3]
  · show ∀ u ∈ setT width W v1.data v1.size x, u < 2 ^ W
    rw [hsetrt]
    exact set_wf h4 _ _ _ _
  · intro m hm
    show getT width W (setT width W v1.data v1.size x) m =
      getT width W v.data m
    rw [hsetrt, getT_eq_get hWk hk (hsetrt ▸ set_wf h4 v1.size
      (if width = 1 then (if x = 0 then 0 else 1) else x) width
      (low_mask width)) hw1 hwW, hlm, h1]
    rw [set_frame_get hWk hk h4 hw1 hwW hib1 _ (show m ≠ v.size by omega)]
    have h5m := h5 m hm
    unfold PackedFixedWidthIntVector.get at h5m
    rw [← hlm, ← getT_eq_get hWk hk h4 hw1 hwW]
    exact h5m
  · show getT width W (setT width W v1.data v1.size x) v.size =
      if width = 1 then (if x = 0 then 0 else 1) else x &&& low_mask width
    rw [hsetrt, getT_eq_get hWk hk (hsetrt ▸ set_wf h4 v1.size
      (if width = 1 then (if x = 0 then 0 else 1) else x) width
      (low_mask width)) hw1 hwW, hlm, h1]
    rw [get_set_same hWk hk h4 hw1 hwW hib1]
    by_cases h1w : width = 1
    · subst h1w
      by_cases hx : x = 0 <;> simp [hx] <;> decide
    · rw [if_neg h1w, if_neg h1w]

theorem pushMany_size_capacity (width W : Nat) (xs : List Nat)
    (hxs : xs ≠ []) :
    (PackedFixedWidthIntVector.pushMany width W defaultPFWVector xs).size =
      xs.length ∧
    (PackedFixedWidthIntVector.pushMany width W defaultPFWVector xs).capacity =
      next_power_of_two xs.length := by
  induction xs using List.reverseRecOn with
  | nil => exact absurd rfl hxs
  | append_singleton ys y ih =>
    have hstep : PackedFixedWidthIntVector.pushMany width W
        defaultPFWVector (ys ++ [y]) =
        PackedFixedWidthIntVector.push_back width W
          (PackedFixedWidthIntVector.pushMany width W defaultPFWVector ys) y := by
      unfold PackedFixedWidthIntVector.pushMany
      rw [List.foldl_append]
      rfl
    by_cases hys : ys = []
    · subst hys
      have hnil : PackedFixedWidthIntVector.pushMany width W
          defaultPFWVector [] = defaultPFWVector := rfl
      obtain ⟨ps, pc⟩ :=
        push_back_size_capacity width W defaultPFWVector (Nat.le_refl 0) y
      rw [hstep, hnil]
      refine ⟨?_, ?_⟩
      · rw [ps]
        simp [defaultPFWVector]
      · rw [pc]
        simp [defaultPFWVector, next_power_of_two, Nat.clog_one_right]
    · obtain ⟨ihs, ihc⟩ := ih hys
      have hlen1 : 1 ≤ ys.length := by
        have h := List.length_pos.mpr hys
        omega
      have hle := next_power_of_two_le ys.length
      obtain ⟨ps, pc⟩ := push_back_size_capacity width W
        (PackedFixedWidthIntVector.pushMany width W defaultPFWVector ys)
        (by rw [ihs, ihc]; exact hle) y
      rw [hstep]
      constructor
      · rw [ps, ihs, List.length_append, List.length_singleton]
      · rw [pc, ihs, ihc, List.length_append, List.length_singleton]
        have hpos : 0 < next_power_of_two ys.length := by
          unfold next_power_of_two
          exact Nat.pos_pow_of_pos _ (by omega)
        by_cases heq : ys.length = next_power_of_two ys.length
        · rw [if_pos heq, if_neg (by omega),
            next_power_of_two_succ_of_eq hlen1 heq.symm, ← heq]
        · rw [if_neg heq,
            next_power_of_two_succ_of_lt (by omega)]

/-- **C5**: starting from an empty vector, after `n ≥ 1` consecutive
`push_back` calls the size is `n` and the capacity is
`next_power_of_two(n)`; each individual push that finds `size == capacity`
grows the capacity to 1 if it was 0 and doubles it otherwise, then writes
the new element at index `size` (masked — or, at width 1, clamped — as
`set` stores it) and increments the size, leaving all previously stored
elements unchanged. -/
theorem claim_C5_push_back {W k : Nat} (hWk : W = 2 ^ k) (hk : k ≤ 6)
    {width : Nat} (hw1 : 1 ≤ width) (hwW : width ≤ W) :
    (∀ xs : List Nat, xs ≠ [] →
      (PackedFixedWidthIntVector.pushMany width W defaultPFWVector xs).size =
        xs.length ∧
      (PackedFixedWidthIntVector.pushMany width W
          defaultPFWVector xs).capacity = next_power_of_two xs.length) ∧
    (∀ (v : PackedFixedWidthIntVector) (x : Nat),
      v.size ≤ v.capacity →
      v.data.length = num_packs_required W v.capacity width →
      (∀ u ∈ v.data, u < 2 ^ W) →
      (2 * v.capacity + 1) * width + W ≤ 2 ^ 64 →
      (PackedFixedWidthIntVector.push_back width W v x).size = v.size + 1 ∧
      (PackedFixedWidthIntVector.push_back width W v x).capacity =
        (if v.size = v.capacity
         then (if v.capacity = 0 then 1 else 2 * v.capacity)
         else v.capacity) ∧
      (∀ m, m < v.size →
        (PackedFixedWidthIntVector.push_back width W v x).get width W m =
          v.get width W m) ∧
      ((PackedFixedWidthIntVector.push_back width W v x).get width W v.size =
        if width = 1 then (if x = 0 then 0 else 1)
        else x &&& low_mask width)) := by
  refine ⟨pushMany_size_capacity width W, ?_⟩
  intro v x hsc hlen hwf hov
  obtain ⟨r1, r2⟩ := push_back_size_capacity width W v hsc x
  obtain ⟨_, _, r3, r4⟩ := push_back_spec hWk hk hw1 hwW v x hsc hlen hwf hov
  exact ⟨r1, r2, r3, r4⟩

theorem claim_C5_push_back_witness :
    ((1 ≤ 13 ∧ 13 ≤ 64) ∧ [1, 2, 3, 4, 5] ≠ ([] : List Nat)) ∧
    ((PackedFixedWidthIntVector.pushMany 13 64
        defaultPFWVector [1, 2, 3, 4, 5]).size = [1, 2, 3, 4, 5].length ∧
     (PackedFixedWidthIntVector.pushMany 13 64
        defaultPFWVector [1, 2, 3, 4, 5]).capacity =
       next_power_of_two [1, 2, 3, 4, 5].length) :=
  ⟨⟨⟨by decide, by decide⟩, by decide⟩,
   (@claim_C5_push_back 64 6 (by decide) (by decide) 13 (by decide)
      (by decide)).1 [1, 2, 3, 4, 5] (by decide)⟩

theorem shl64_eq_mul_mod (x n : Nat) : shl64 x n = x * 2 ^ n % U64 := by
  unfold shl64
  split
  · rw [Nat.shiftLeft_eq]
  · have hdvd : (2 : Nat) ^ 64 ∣ x * 2 ^ n := by
      apply Dvd.dvd.mul_left
      exact Nat.pow_dvd_pow 2 (by omega)
    unfold U64
    obtain ⟨c, hc⟩ := hdvd
    rw [hc, Nat.mul_mod_right]

theorem shl64_shl64_one {w : Nat} (hw : 1 ≤ w) (y : Nat) :
    shl64 (shl64 y (w - 1)) 1 = shl64 y w := by
  rw [shl64_eq_mul_mod, shl64_eq_mul_mod, shl64_eq_mul_mod,
    Nat.mod_mul_mod]
  have e : y * 2 ^ (w - 1) * 2 ^ 1 = y * 2 ^ w := by
    rw [Nat.mul_assoc, ← Nat.pow_add]
    congr 2
    omega
  rw [e]

theorem low_mask_zero : low_mask 0 = U64 - 1 := by decide

theorem low_mask0_zero : low_mask0 0 = 0 := by decide

theorem replicate_getD_zero (L n : Nat) :
    (List.replicate L (0 : Nat)).getD n 0 = 0 := by
  rw [List.getD_eq_getElem?_getD]
  rcases Nat.lt_or_ge n L with h | h
  · rw [List.getElem?_replicate_of_lt h]
    rfl
  · rw [List.getElem?_eq_none (by simpa using h)]
    rfl

theorem pd_get_eq (W : Nat) (pv : pdinklag.PackedIntVector) (i : Nat) :
    pv.get W i = get W pv.data i pv.width pv.mask := rfl

theorem pd_set_fields (W : Nat) (pv : pdinklag.PackedIntVector) (i x : Nat) :
    (pv.set W i x).size = pv.size ∧ (pv.set W i x).capacity = pv.capacity ∧
    (pv.set W i x).width = pv.width ∧ (pv.set W i x).mask = pv.mask := by
  unfold pdinklag.PackedIntVector.set
  dsimp only
  split <;> exact ⟨rfl, rfl, rfl, rfl⟩

/-- `pdinklag::PackedIntVector::set` writes the same buffer as the
`word_packing` runtime `set` whenever the element does not start at a word
boundary, or the low `width_` bits of the target word are still clear (the
only difference between the two is the low-preserve mask at offset 0, where
`low_mask(0)` is all-ones while `low_mask0(0)` is 0, and there the old
word's low bits decide; the split branches differ only in `low_mask` vs
`low_mask0` at a provably nonzero offset, and the single-shift high mask
`~mask_lo << width_` agrees with the two-step shift). -/
theorem pd_set_data_eq {W k : Nat} (hWk : W = 2 ^ k) (hk : k ≤ 6)
    (pv : pdinklag.PackedIntVector) (i x : Nat)
    (hw1 : 1 ≤ pv.width) (hwW : pv.width ≤ W)
    (hmask : pv.mask < U64)
    (hwf : ∀ u ∈ pv.data, u < 2 ^ W)
    (hcond : i * pv.width % W ≠ 0 ∨
      pv.data.getD (i * pv.width / W) 0 % 2 ^ pv.width = 0) :
    (pv.set W i x).data = word_packing.set W pv.data i x pv.width pv.mask := by
  have hW0 : 0 < W := by rw [hWk]; exact Nat.pos_pow_of_pos _ (by omega)
  have hW64 : W ≤ 64 := by
    have h6 : (2 : Nat) ^ k ≤ 2 ^ 6 := Nat.pow_le_pow_right (by omega) hk
    have h64 : (2 : Nat) ^ 6 = 64 := by norm_num
    omega
  have hmod : i * pv.width % W < W := Nat.mod_lt _ hW0
  have hdiv := Nat.div_add_mod (i * pv.width) W
  have hab : i * pv.width / W ≤ (i * pv.width + pv.width - 1) / W :=
    Nat.div_le_div_right (by omega)
  have hda : i * pv.width &&& (W - 1) = i * pv.width % W := by
    rw [hWk, Nat.and_pow_two_sub_one_eq_mod]
  unfold pdinklag.PackedIntVector.set word_packing.set
  dsimp only
  rw [hda]
  by_cases hlt : i * pv.width / W < (i * pv.width + pv.width - 1) / W
  · rw [if_pos hlt, if_neg (by omega)]
    have hda1 : 1 ≤ i * pv.width % W := by
      by_contra h0
      have he : i * pv.width + pv.width - 1 =
          W * (i * pv.width / W) + (pv.width - 1) := by omega
      have hb0 : (i * pv.width + pv.width - 1) / W = i * pv.width / W := by
        rw [he, Nat.mul_add_div hW0,
          Nat.div_eq_of_lt (show pv.width - 1 < W by omega), Nat.add_zero]
      omega
    rw [low_mask_eq hda1 (by omega), low_mask0_eq (by omega)]
  · have heq : i * pv.width / W = (i * pv.width + pv.width - 1) / W := by omega
    rw [if_neg hlt, if_pos heq]
    by_cases hdl : i * pv.width % W = 0
    · have hzero : pv.data.getD (i * pv.width / W) 0 % 2 ^ pv.width = 0 := by
        rcases hcond with h | h
        · exact absurd hdl h
        · exact h
      have hxa : pv.data.getD (i * pv.width / W) 0 < 2 ^ W :=
        getD_lt_two_pow hwf _
      have hxa64 : pv.data.getD (i * pv.width / W) 0 < 2 ^ 64 :=
        lt_of_lt_of_le hxa (Nat.pow_le_pow_right (by omega) hW64)
      have e1 : pv.data.getD (i * pv.width / W) 0 &&& (U64 - 1) =
          pv.data.getD (i * pv.width / W) 0 := by
        rw [show (U64 - 1 : Nat) = 2 ^ 64 - 1 from rfl,
          Nat.and_pow_two_sub_one_eq_mod, Nat.mod_eq_of_lt hxa64]
      have e2 : not64 (U64 - 1) = 0 := by
        unfold not64
        exact Nat.xor_self _
      have e3 : shl64 (0 : Nat) pv.width = 0 := by
        rw [shl64_eq_mul_mod, Nat.zero_mul, Nat.zero_mod]
      have e4 : not64 0 = U64 - 1 := by
        unfold not64
        exact Nat.xor_zero _
      have e5 : shl64 (shl64 (U64 - 1) (pv.width - 1)) 1 =
          shl64 (U64 - 1) pv.width := shl64_shl64_one hw1 _
      have e6 : pv.data.getD (i * pv.width / W) 0 &&& shl64 (U64 - 1) pv.width =
          pv.data.getD (i * pv.width / W) 0 := by
        apply Nat.eq_of_testBit_eq
        intro t
        rw [Nat.testBit_and]
        by_cases ht : t < pv.width
        · have hbit : (pv.data.getD (i * pv.width / W) 0).testBit t = false := by
            have hz := congrArg (Nat.testBit · t) hzero
            simpa [Nat.testBit_mod_two_pow, ht] using hz
          rw [hbit, Bool.false_and]
        · by_cases ht64 : t < 64
          · have hmaskbit : (shl64 (U64 - 1) pv.width).testBit t = true := by
              rw [testBit_shl64,
                show (U64 - 1 : Nat) = 2 ^ 64 - 1 from rfl,
                Nat.testBit_two_pow_sub_one]
              simp only [Bool.and_eq_true, decide_eq_true_eq]
              exact ⟨⟨ht64, by omega⟩, by omega⟩
            rw [hmaskbit, Bool.and_true]
          · have hhi : (pv.data.getD (i * pv.width / W) 0).testBit t = false :=
              Nat.testBit_lt_two_pow
                (lt_of_lt_of_le hxa64 (Nat.pow_le_pow_right (by omega) (by omega)))
            rw [hhi, Bool.false_and]
      have e7 : shl64 (x &&& pv.mask) 0 = x &&& pv.mask := by
        rw [shl64_eq_mul_mod, Nat.pow_zero, Nat.mul_one]
        exact Nat.mod_eq_of_lt (lt_of_le_of_lt Nat.and_le_right hmask)
      rw [hdl, low_mask_zero, low_mask0_zero, e1, e2, e3, e4, e5, e6, e7,
        Nat.and_zero, Nat.or_zero, Nat.zero_or, Nat.lor_comm]
    · rw [low_mask_eq (by omega) (by omega), low_mask0_eq (by omega),
        shl64_shl64_one hw1]

/-- One iteration of the re-pack loop: writing element `n` into a fresh-style
vector (fields of `mkPackedIntVector`, all bits from `n * w'` on still clear)
keeps the fields, buffer length and well-formedness, clears nothing below,
leaves all bits from `(n + 1) * w'` on clear, stores `x % 2 ^ w'` at `n` and
keeps every other element. -/
theorem repack_step {W k : Nat} (hWk : W = 2 ^ k) (hk : k ≤ 6)
    (w' L n : Nat) (hw1 : 1 ≤ w') (hwW : w' ≤ W)
    (pv : pdinklag.PackedIntVector) (x : Nat)
    (hwid : pv.width = w') (hmsk : pv.mask = low_mask w')
    (hlen : pv.data.length = L)
    (hwf : ∀ u ∈ pv.data, u < 2 ^ W)
    (hzero : ∀ p, n * w' ≤ p → bufBit W pv.data p = false)
    (hib : n * w' + w' ≤ L * W) :
    (pv.set W n x).size = pv.size ∧
    (pv.set W n x).capacity = pv.capacity ∧
    (pv.set W n x).width = w' ∧
    (pv.set W n x).mask = low_mask w' ∧
    (pv.set W n x).data.length = L ∧
    (∀ u ∈ (pv.set W n x).data, u < 2 ^ W) ∧
    (∀ p, n * w' + w' ≤ p → bufBit W (pv.set W n x).data p = false) ∧
    (pv.set W n x).get W n = x % 2 ^ w' ∧
    (∀ m, m ≠ n → (pv.set W n x).get W m = pv.get W m) := by
  have hW0 : 0 < W := by rw [hWk]; exact Nat.pos_pow_of_pos _ (by omega)
  have hW64 : W ≤ 64 := by
    have h6 : (2 : Nat) ^ k ≤ 2 ^ 6 := Nat.pow_le_pow_right (by omega) hk
    have h64 : (2 : Nat) ^ 6 = 64 := by norm_num
    omega
  have hmaskeq : low_mask w' = 2 ^ w' - 1 := low_mask_eq hw1 (by omega)
  have hib' : n * w' + w' ≤ pv.data.length * W := by rw [hlen]; exact hib
  have hcond : n * pv.width % W ≠ 0 ∨
      pv.data.getD (n * pv.width / W) 0 % 2 ^ pv.width = 0 := by
    rw [hwid]
    by_cases hdl : n * w' % W = 0
    · right
      have hdm := Nat.div_add_mod (n * w') W
      have hword : pv.data.getD (n * w' / W) 0 = 0 := by
        apply Nat.eq_of_testBit_eq
        intro t
        rw [Nat.zero_testBit]
        by_cases htW : t < W
        · have hp := hzero (W * (n * w' / W) + t) (by omega)
          unfold bufBit at hp
          rw [mulW_add_div hW0 _ _ htW, mulW_add_mod _ _ htW] at hp
          exact hp
        · exact Nat.testBit_lt_two_pow
            (lt_of_lt_of_le (getD_lt_two_pow hwf _)
              (Nat.pow_le_pow_right (by omega) (by omega)))
      rw [hword, Nat.zero_mod]
    · left
      exact hdl
  have hdata := pd_set_data_eq hWk hk pv n x (by rw [hwid]; exact hw1)
    (by rw [hwid]; exact hwW) (by rw [hmsk]; exact low_mask_lt _) hwf hcond
  rw [hwid, hmsk, hmaskeq] at hdata
  obtain ⟨hf1, hf2, hf3, hf4⟩ := pd_set_fields W pv n x
  refine ⟨hf1, hf2, hf3.trans hwid, hf4.trans hmsk, ?_, ?_, ?_, ?_, ?_⟩
  · rw [hdata, set_length, hlen]
  · rw [hdata]
    exact set_wf hwf n x w' (2 ^ w' - 1)
  · intro p hp
    rw [hdata, set_bufBit hWk hk hwf hw1 hwW hib' x p, if_neg (by omega)]
    exact hzero p (by omega)
  · rw [pd_get_eq, hf3.trans hwid, hf4.trans hmsk, hmaskeq, hdata,
      get_set_same hWk hk hwf hw1 hwW hib' x]
    exact Nat.and_pow_two_sub_one_eq_mod x w'
  · intro m hm
    rw [pd_get_eq, hf3.trans hwid, hf4.trans hmsk, hmaskeq, hdata,
      set_frame_get hWk hk hwf hw1 hwW hib' x hm,
      pd_get_eq, hwid, hmsk, hmaskeq]

/-- Invariant of the `resize` re-packing loop after `n` of the `copy_num`
iterations, starting from the freshly constructed vector: the fields are
those of the constructor, the buffer keeps its length and well-formedness,
every bit at position `n * w'` or beyond is still clear, and the first `n`
elements are the old elements reduced modulo `2 ^ w'`. -/
theorem repackLoop_spec {W k : Nat} (hWk : W = 2 ^ k) (hk : k ≤ 6)
    (v : pdinklag.PackedIntVector) (size' w' : Nat)
    (hw1 : 1 ≤ w') (hwW : w' ≤ W)
    (hov : size' * w' + W ≤ 2 ^ 64) :
    ∀ n, n ≤ size' →
    (pdinklag.PackedIntVector.repackLoop W v
        (pdinklag.mkPackedIntVector W size' w') n).size = size' ∧
    (pdinklag.PackedIntVector.repackLoop W v
        (pdinklag.mkPackedIntVector W size' w') n).capacity = size' ∧
    (pdinklag.PackedIntVector.repackLoop W v
        (pdinklag.mkPackedIntVector W size' w') n).width = w' ∧
    (pdinklag.PackedIntVector.repackLoop W v
        (pdinklag.mkPackedIntVector W size' w') n).mask = low_mask w' ∧
    (pdinklag.PackedIntVector.repackLoop W v
        (pdinklag.mkPackedIntVector W size' w') n).data.length =
      pdinklag.pack_word_count W size' w' ∧
    (∀ u ∈ (pdinklag.PackedIntVector.repackLoop W v
        (pdinklag.mkPackedIntVector W size' w') n).data, u < 2 ^ W) ∧
    (∀ p, n * w' ≤ p → bufBit W (pdinklag.PackedIntVector.repackLoop W v
        (pdinklag.mkPackedIntVector W size' w') n).data p = false) ∧
    (∀ m, m < n → (pdinklag.PackedIntVector.repackLoop W v
        (pdinklag.mkPackedIntVector W size' w') n).get W m =
      v.get W m % 2 ^ w') := by
  have hW0 : 0 < W := by rw [hWk]; exact Nat.pos_pow_of_pos _ (by omega)
  have hL : pdinklag.pack_word_count W size' w' = (size' * w' + W - 1) / W := by
    show num_packs_required W size' w' = _
    exact num_packs_required_eq hW0 hov
  intro n
  induction n with
  | zero =>
    intro _
    refine ⟨rfl, rfl, rfl, rfl,
      by simp [pdinklag.PackedIntVector.repackLoop, pdinklag.mkPackedIntVector], ?_, ?_, ?_⟩
    · intro u hu
      have hu' : u ∈ List.replicate (pdinklag.pack_word_count W size' w') (0 : Nat) := hu
      rw [List.eq_of_mem_replicate hu']
      exact Nat.pos_pow_of_pos _ (by omega)
    · intro p _
      show ((List.replicate (pdinklag.pack_word_count W size' w') (0 : Nat)).getD
        (p / W) 0).testBit (p % W) = false
      rw [replicate_getD_zero]
      exact Nat.zero_testBit _
    · intro m hm
      exact absurd hm (by omega)
  | succ n ih =>
    intro hn1
    obtain ⟨h1, h2, h3, h4, h5, h6, h7, h8⟩ := ih (by omega)
    have hib : n * w' + w' ≤ pdinklag.pack_word_count W size' w' * W := by
      have hmle : (n + 1) * w' ≤ size' * w' := Nat.mul_le_mul hn1 (le_refl w')
      have hrg : (n + 1) * w' = n * w' + w' := by ring
      calc n * w' + w' ≤ size' * w' := by omega
        _ ≤ ((size' * w' + W - 1) / W) * W := le_ceil_div_mul hW0 _
        _ = pdinklag.pack_word_count W size' w' * W := by rw [hL]
    obtain ⟨g1, g2, g3, g4, g5, g6, g7, g8, g9⟩ :=
      repack_step hWk hk w' (pdinklag.pack_word_count W size' w') n hw1 hwW
        (pdinklag.PackedIntVector.repackLoop W v
          (pdinklag.mkPackedIntVector W size' w') n)
        (v.get W n) h3 h4 h5 h6 h7 hib
    have hunf : pdinklag.PackedIntVector.repackLoop W v
        (pdinklag.mkPackedIntVector W size' w') (n + 1) =
        (pdinklag.PackedIntVector.repackLoop W v
          (pdinklag.mkPackedIntVector W size' w') n).set W n (v.get W n) := rfl
    refine ⟨g1.trans h1, g2.trans h2, g3, g4, g5, g6, ?_, ?_⟩
    · intro p hp
      have hrg : (n + 1) * w' = n * w' + w' := by ring
      exact g7 p (by omega)
    · intro m hm
      by_cases hmn : m = n
      · subst hmn
        exact g8
      · have hfr := g9 m hmn
        rw [hunf, hfr]
        exact h8 m (by omega)

/-- Claim C6: `resize(new_size, new_width)` with `new_width != width_` on the
runtime-width `pdinklag::PackedIntVector` re-packs element by element: every
preserved index `i < min(old_size, new_size)` afterwards holds the old
element truncated to the low `new_width` bits, and in particular when the
vector is widened (e.g. 13 to 14 bits) every preserved element is unchanged.
Stated over a power-of-two pack-word width `W = 2 ^ k ≤ 64` for a
well-formed vector, with the pack-count product not wrapping in `size_t`. -/
theorem claim_C6_resize_repack {W k : Nat} (hWk : W = 2 ^ k) (hk : k ≤ 6)
    (v : pdinklag.PackedIntVector) (new_size new_width : Nat)
    (hw1 : 1 ≤ new_width) (hwW : new_width ≤ W)
    (hvw1 : 1 ≤ v.width) (hvwW : v.width ≤ 64)
    (hmsk : v.mask = low_mask v.width)
    (hne : new_width ≠ v.width)
    (hov : new_size * new_width + W ≤ 2 ^ 64) :
    ∀ i, i < min v.size new_size →
      (v.resize W new_size new_width).get W i = v.get W i % 2 ^ new_width ∧
      (v.width ≤ new_width →
        (v.resize W new_size new_width).get W i = v.get W i) := by
  intro i hi
  have hres : v.resize W new_size new_width =
      pdinklag.PackedIntVector.repackLoop W v
        (pdinklag.mkPackedIntVector W new_size new_width)
        (min v.size new_size) := by
    unfold pdinklag.PackedIntVector.resize
    rw [if_neg (fun h => hne h.1)]
    dsimp only
    rw [if_neg (fun h => hne h.symm)]
  obtain ⟨h1, h2, h3, h4, h5, h6, h7, h8⟩ :=
    repackLoop_spec hWk hk v new_size new_width hw1 hwW hov
      (min v.size new_size) (Nat.min_le_right _ _)
  have hmain : (v.resize W new_size new_width).get W i =
      v.get W i % 2 ^ new_width := by
    rw [hres]
    exact h8 i hi
  refine ⟨hmain, ?_⟩
  intro hle
  have hlt : v.get W i < 2 ^ v.width := by
    rw [pd_get_eq, hmsk, low_mask_eq hvw1 hvwW]
    exact get_lt_two_pow W v.data i v.width
  rw [hmain]
  exact Nat.mod_eq_of_lt (lt_of_lt_of_le hlt (Nat.pow_le_pow_right (by omega) hle))

/-- Witness for C6: a width-13 vector with elements 5000 and 777 resized to
size 3 at width 14 keeps both elements exactly. -/
theorem claim_C6_resize_repack_witness :
    ((((pdinklag.mkPackedIntVector 64 2 13).set 64 0 5000).set 64 1
        777).resize 64 3 14).get 64 0 =
      (((pdinklag.mkPackedIntVector 64 2 13).set 64 0 5000).set 64 1
        777).get 64 0 % 2 ^ 14 ∧
    ((((pdinklag.mkPackedIntVector 64 2 13).set 64 0 5000).set 64 1
        777).width ≤ 14 →
      ((((pdinklag.mkPackedIntVector 64 2 13).set 64 0 5000).set 64 1
          777).resize 64 3 14).get 64 0 =
        (((pdinklag.mkPackedIntVector 64 2 13).set 64 0 5000).set 64 1
          777).get 64 0) :=
  @claim_C6_resize_repack 64 6 (by decide) (by decide)
    (((pdinklag.mkPackedIntVector 64 2 13).set 64 0 5000).set 64 1 777)
    3 14 (by decide) (by decide) (by decide) (by decide) (by decide)
    (by decide) (by decide) 0 (by decide)
